import Mathlib

/-!
Dove stream cipher: a shallow embedding of `dove.c`.

Machine words (`uint32_t`) are natural numbers below `2 ^ 32`; every C operation that can
leave that range is followed by an explicit reduction modulo `2 ^ 32`.  Bytes (`uint8_t`) are
natural numbers below `256`.  The file-scope variables `state`, `counter_high` and
`counter_low` are gathered in the record `Engine`, which every operation takes and returns.
-/

namespace Dove

/-! ## Constants -/

/-- Number of 32-bit words of the internal state (`#define STATE_SIZE 16`). -/
def STATE_SIZE : Nat := 16

/-- Number of rounds (`#define ROUNDS 20`). -/
def ROUNDS : Nat := 20

/-- Bytes per keystream block (`#define BLOCK_SIZE 64`). -/
def BLOCK_SIZE : Nat := 64

/-- Width of a machine word in bits (`#define WORD_SIZE 32`). -/
def WORD_SIZE : Nat := 32

/-- Reduction of a natural number to a `uint32_t`. -/
def u32 (x : Nat) : Nat := x % 2 ^ 32

/-- The multiplier `0x6170766f` used by `dove_mix` and `dove_transform`. -/
def MULT : Nat := 0x6170766f

/-! ## Rotations, `dove_mix`, `dove_transform` -/

/-- Source `rotleft`: `(value << shift) | (value >> (WORD_SIZE - shift))` on `uint32_t`. -/
def rotleft (value shift : Nat) : Nat :=
  u32 (value <<< shift) ||| (value >>> (WORD_SIZE - shift))

/-- Source `rotright`: `(value >> shift) | (value << (WORD_SIZE - shift))` on `uint32_t`. -/
def rotright (value shift : Nat) : Nat :=
  (value >>> shift) ||| u32 (value <<< (WORD_SIZE - shift))

/-- Source `dove_mix`: the three-word combiner. -/
def dove_mix (a b c : Nat) : Nat :=
  let a := a ^^^ (rotleft b 7 ^^^ rotright c 13)
  let b := b ^^^ (rotleft c 9 ^^^ rotright a 11)
  let c := c ^^^ (rotleft a 15 ^^^ rotright b 5)
  let a := u32 (a * MULT)
  let b := u32 (b + rotleft c 13)
  let c := c ^^^ rotright a 11
  a ^^^ b ^^^ c

/-- First statement of `dove_transform`: `x ^= rotleft(x, 5) ^ rotright(x, 7)`. -/
def transform_step1 (x : Nat) : Nat := x ^^^ (rotleft x 5 ^^^ rotright x 7)

/-- Second statement of `dove_transform`: `x *= 0x6170766f`. -/
def transform_step2 (x : Nat) : Nat := u32 (x * MULT)

/-- Third statement of `dove_transform`: `x ^= rotleft(x, 13)`. -/
def transform_step3 (x : Nat) : Nat := x ^^^ rotleft x 13

/-- Fourth statement of `dove_transform`: `x += rotright(x, 11)`. -/
def transform_step4 (x : Nat) : Nat := u32 (x + rotright x 11)

/-- Fifth statement of `dove_transform`: `x ^= (x >> 17) | (x << 15)`. -/
def transform_step5 (x : Nat) : Nat := x ^^^ ((x >>> 17) ||| u32 (x <<< 15))

/-- Source `dove_transform`: its five statements in order. -/
def dove_transform (x : Nat) : Nat :=
  transform_step5 (transform_step4 (transform_step3 (transform_step2 (transform_step1 x))))

/-! ## Engine -/

/-- The file-scope variables of `dove.c`: `state[STATE_SIZE]`, `counter_high`, `counter_low`. -/
structure Engine where
  /-- The words `state[0 .. 15]`. -/
  state : List Nat
  /-- High half of the block counter. -/
  counter_high : Nat
  /-- Low half of the block counter. -/
  counter_low : Nat
deriving DecidableEq

/-- The two statements `w[i] = dove_transform(w[i]); w[i] ^= dove_mix(w[(i+o1) % 16],
w[(i+o2) % 16], w[(i+o3) % 16]);` shared by the key schedule and both passes of a round. -/
def mix_word (w : List Nat) (i o1 o2 o3 : Nat) : List Nat :=
  let w := w.set i (dove_transform (w.getD i 0))
  w.set i (w.getD i 0 ^^^ dove_mix (w.getD ((i + o1) % STATE_SIZE) 0)
    (w.getD ((i + o2) % STATE_SIZE) 0) (w.getD ((i + o3) % STATE_SIZE) 0))

/-- Loop `for (i = 0; i < STATE_SIZE; i++)` with offsets `1, 7, 13` (key schedule lines 70-77,
column rounds lines 106-113). -/
def column_pass (w : List Nat) : List Nat :=
  (List.range STATE_SIZE).foldl (fun w i => mix_word w i 1 7 13) w

/-- Loop of lines 116-124: `idx = (i * 5) % STATE_SIZE`, offsets `3, 9, 14`. -/
def diagonal_pass (w : List Nat) : List Nat :=
  (List.range STATE_SIZE).foldl (fun w i => mix_word w ((i * 5) % STATE_SIZE) 3 9 14) w

/-! ## Key schedule and `dove_init` -/

/-- Ways in which `key_schedule` leaves defined behaviour.  The C functions return `void` and
validate nothing, so there is no constructor for an error reported to the caller. -/
inductive Fault where
  /-- The operation `i % key_length` with `key_length = 0`. -/
  | modByZero
  /-- The read of a byte past the end of the buffer handed in. -/
  | readOutOfBounds
deriving DecidableEq

/-- The read `key[idx % key_length]`; `key_length` is the length of `key`. -/
def key_byte (key : List Nat) (idx : Nat) : Except Fault Nat :=
  if key.length = 0 then Except.error Fault.modByZero
  else
    match key[idx % key.length]? with
    | some b => Except.ok b
    | none => Except.error Fault.readOutOfBounds

/-- The read `nonce[idx]`. -/
def nonce_byte (nonce : List Nat) (idx : Nat) : Except Fault Nat :=
  match nonce[idx]? with
  | some b => Except.ok b
  | none => Except.error Fault.readOutOfBounds

/-- Big-endian packing of four bytes, `(b0 << 24) | (b1 << 16) | (b2 << 8) | b3`. -/
def pack_be (b0 b1 b2 b3 : Nat) : Nat :=
  (b0 <<< 24) ||| (b1 <<< 16) ||| (b2 <<< 8) ||| b3

/-- Lines 50-53: the initial value of `temp[i]`. -/
def key_word (key : List Nat) (i : Nat) : Except Fault Nat := do
  let b0 ← key_byte key i
  let b1 ← key_byte key (i + 1)
  let b2 ← key_byte key (i + 2)
  let b3 ← key_byte key (i + 3)
  pure (pack_be b0 b1 b2 b3)

/-- Lines 58-61: `nonce_word` for loop index `i`. -/
def nonce_word (nonce : List Nat) (i : Nat) : Except Fault Nat := do
  let b0 ← nonce_byte nonce (i * 4)
  let b1 ← nonce_byte nonce (i * 4 + 1)
  let b2 ← nonce_byte nonce (i * 4 + 2)
  let b3 ← nonce_byte nonce (i * 4 + 3)
  pure (pack_be b0 b1 b2 b3)

/-- Lines 63-65: `for j: temp[j] ^= dove_transform(nonce_word + j)`. -/
def nonce_fold (temp : List Nat) (nw : Nat) : List Nat :=
  (List.range STATE_SIZE).foldl
    (fun t j => t.set j (t.getD j 0 ^^^ dove_transform (u32 (nw + j)))) temp

/-- Lines 69-78: `ROUNDS` passes over `temp`. -/
def diffuse (temp : List Nat) : List Nat :=
  (List.range ROUNDS).foldl (fun t _ => column_pass t) temp

/-- Source `key_schedule`; the result is the array copied into `state`. -/
def key_schedule (key nonce : List Nat) : Except Fault (List Nat) := do
  let temp ← (List.range STATE_SIZE).mapM (key_word key)
  let temp ← (List.range 4).foldlM
    (fun t i => do
      let nw ← nonce_word nonce i
      pure (nonce_fold t nw)) temp
  pure (diffuse temp)

/-- Source `dove_init`: `key_schedule`, then both counter halves set to zero.  The engine
before the call is an argument because the C function overwrites global variables. -/
def dove_init (_e : Engine) (key nonce : List Nat) : Except Fault Engine := do
  let st ← key_schedule key nonce
  pure { state := st, counter_high := 0, counter_low := 0 }

/-- Source `dove_reset`: `memset(state, 0, sizeof(state))` and both counter halves zero. -/
def dove_reset (_e : Engine) : Engine :=
  { state := List.replicate STATE_SIZE 0, counter_high := 0, counter_low := 0 }

/-! ## `dove_crypt` -/

/-- Byte order of the host, which decides what `((uint8_t*)keystream)[i]` reads. -/
inductive Endian where
  /-- Least significant byte of a word at the lowest address. -/
  | little
  /-- Most significant byte of a word at the lowest address. -/
  | big
deriving DecidableEq

/-- The read `((uint8_t*)keystream)[i]`. -/
def keystream_byte (bo : Endian) (ks : List Nat) (i : Nat) : Nat :=
  match bo with
  | Endian.little => (ks.getD (i / 4) 0 >>> (8 * (i % 4))) % 256
  | Endian.big => (ks.getD (i / 4) 0 >>> (8 * (3 - i % 4))) % 256

/-- Lines 98-101: both counter halves folded into every keystream word. -/
def add_counter (ks : List Nat) (counter_low counter_high : Nat) : List Nat :=
  (List.range STATE_SIZE).foldl
    (fun ks i =>
      let ks := ks.set i (ks.getD i 0 ^^^ dove_transform (u32 (counter_low + i)))
      ks.set i (ks.getD i 0 ^^^ dove_transform (u32 (counter_high + i)))) ks

/-- Lines 104-125: `ROUNDS` rounds, each a column pass followed by a diagonal pass. -/
def crypt_rounds (ks : List Nat) : List Nat :=
  (List.range ROUNDS).foldl (fun ks _ => diagonal_pass (column_pass ks)) ks

/-- Lines 95-125: the keystream block of the current engine. -/
def keystream_block (e : Engine) : List Nat :=
  crypt_rounds (add_counter e.state e.counter_low e.counter_high)

/-- Lines 131-133: `for i < block_size: data[processed + i] ^= ((uint8_t*)keystream)[i]`. -/
def xor_block (bo : Endian) (ks data : List Nat) (processed block_size : Nat) : List Nat :=
  (List.range block_size).foldl
    (fun d i => d.set (processed + i) (d.getD (processed + i) 0 ^^^ keystream_byte bo ks i))
    data

/-- Lines 142-149: the state update after a block. -/
def ratchet (state ks : List Nat) : List Nat :=
  (List.range STATE_SIZE).foldl
    (fun st i =>
      let st := st.set i (dove_transform (st.getD i 0 ^^^ ks.getD i 0))
      st.set i (st.getD i 0 ^^^ dove_mix (st.getD ((i + 1) % STATE_SIZE) 0)
        (st.getD ((i + 7) % STATE_SIZE) 0) (st.getD ((i + 13) % STATE_SIZE) 0))) state

/-- Lines 136-149: counter increment with carry, then the ratchet with keystream `ks`. -/
def advance (e : Engine) (ks : List Nat) : Engine :=
  let counter_low := u32 (e.counter_low + 1)
  let counter_high := if counter_low = 0 then u32 (e.counter_high + 1) else e.counter_high
  { state := ratchet e.state ks, counter_high := counter_high, counter_low := counter_low }

/-- The loop `while (processed < length)` of `dove_crypt`.  The first argument bounds the
number of iterations; every iteration consumes at least one byte, so `length` iterations
are enough (`crypt_loop_fuel`). -/
def crypt_loop (bo : Endian) :
    Nat → Engine → List Nat → Nat → Nat → Engine × List Nat
  | 0, e, data, _, _ => (e, data)
  | fuel + 1, e, data, length, processed =>
    if processed < length then
      let ks := keystream_block e
      let block_size := if length - processed < BLOCK_SIZE then length - processed
        else BLOCK_SIZE
      let data := xor_block bo ks data processed block_size
      let e := advance e ks
      crypt_loop bo fuel e data length (processed + block_size)
    else (e, data)

/-- Source `dove_crypt(data, length)`: the engine and the buffer after the call.  The caller
hands in a buffer of at least `length` bytes; list positions past the end are left alone. -/
def dove_crypt (bo : Endian) (e : Engine) (data : List Nat) (length : Nat) :
    Engine × List Nat :=
  crypt_loop bo length e data length 0

/-- Successive `dove_crypt` calls on the buffers of a list, each with its own length, the
engine threaded from one call to the next. -/
def crypt_calls (bo : Endian) : Engine → List (List Nat) → Engine × List (List Nat)
  | e, [] => (e, [])
  | e, d :: ds =>
    let r := dove_crypt bo e d d.length
    let rs := crypt_calls bo r.1 ds
    (rs.1, r.2 :: rs.2)

/-! ## The block loop seen from the engine -/

/-- What one iteration of the loop does to the engine: the keystream block is derived from
the engine alone, then the counter is incremented and the state ratcheted with it. -/
def next_block (e : Engine) : Engine := advance e (keystream_block e)

/-- The engine after `n` iterations of the block loop. -/
def after_blocks : Nat → Engine → Engine
  | 0, e => e
  | n + 1, e => after_blocks n (next_block e)

/-- The keystream byte that a call started on engine `e` applies at offset `k` of its
buffer: byte `k % 64` of the keystream block of iteration `k / 64`. -/
def stream_byte (bo : Endian) (e : Engine) (k : Nat) : Nat :=
  keystream_byte bo (keystream_block (after_blocks (k / BLOCK_SIZE) e)) (k % BLOCK_SIZE)

/-- The keystream bytes that a call of length `n` started on engine `e` applies. -/
def keystream (bo : Endian) (e : Engine) (n : Nat) : List Nat :=
  (List.range n).map (stream_byte bo e)

/-- Bytewise exclusive-or of two buffers. -/
def xor_bytes (a b : List Nat) : List Nat := List.zipWith (fun x y => x ^^^ y) a b

/-- A buffer extended with zero bytes up to the next multiple of 64 bytes. -/
def zero_pad (d : List Nat) : List Nat :=
  d ++ List.replicate (64 * ((d.length + 63) / 64) - d.length) 0

/-- The 64-bit value of the block counter, `counter_high * 2^32 + counter_low`. -/
def Engine.counter (e : Engine) : Nat := e.counter_high * 2 ^ 32 + e.counter_low

/-! ## Values read by the key schedule -/

/-- The array `temp` after the loop of lines 49-54, when every key read succeeds. -/
def key_words (key : List Nat) : List Nat :=
  (List.range STATE_SIZE).map (fun i =>
    pack_be (key.getD (i % key.length) 0) (key.getD ((i + 1) % key.length) 0)
      (key.getD ((i + 2) % key.length) 0) (key.getD ((i + 3) % key.length) 0))

/-- The value of `nonce_word` in iteration `i`, when every nonce read succeeds. -/
def nonce_word_value (nonce : List Nat) (i : Nat) : Nat :=
  pack_be (nonce.getD (i * 4) 0) (nonce.getD (i * 4 + 1) 0) (nonce.getD (i * 4 + 2) 0)
    (nonce.getD (i * 4 + 3) 0)

/-! ## Proof devices for `dove_transform` -/

/-- On bit sequences indexed modulo 32: bit `i` exclusive-ored with the bits at distance `a`
and `b`.  With `a = 27` and `b = 7` this is the first statement of `dove_transform` read bit
by bit. -/
def rot_xor_bits (a b : Nat) (f : Nat → Bool) : Nat → Bool :=
  fun i => f (i % 32) ^^ (f ((i + a) % 32) ^^ f ((i + b) % 32))

/-- Seven applications of the first statement of `dove_transform`; an eighth gives back the
argument (`step1_eight`). -/
def step1_inverse (x : Nat) : Nat :=
  transform_step1 (transform_step1 (transform_step1 (transform_step1
    (transform_step1 (transform_step1 (transform_step1 x))))))

/-- Candidate inverse of the first two statements of `dove_transform`: multiplication by
`0x855ba88f`, the inverse of `0x6170766f` modulo `2 ^ 32`, then `step1_inverse`. -/
def prefix_inverse (z : Nat) : Nat := step1_inverse (u32 (z * 2237376655))

/-- The four values of `nonce_word`, in loop order, when every nonce read succeeds. -/
def nonce_words (nonce : List Nat) : List Nat :=
  (List.range 4).map (nonce_word_value nonce)

/-- The indices `idx = (i * 5) % STATE_SIZE` of the diagonal pass, in loop order. -/
def diagonal_indices : List Nat :=
  (List.range STATE_SIZE).map (fun i => (i * 5) % STATE_SIZE)

/-! ## The formula of the specification for Transform -/

/-- Circular left rotation of a 32-bit word as the specification means it (section 4.1),
taken from the library: `BitVec.rotateLeft` at width 32. -/
def spec_rotate_left (v s : Nat) : Nat := ((BitVec.ofNat 32 v).rotateLeft s).toNat

/-- Circular right rotation of a 32-bit word as the specification means it (section 4.1),
taken from the library: `BitVec.rotateRight` at width 32. -/
def spec_rotate_right (v s : Nat) : Nat := ((BitVec.ofNat 32 v).rotateRight s).toNat

/-- Transform as the specification writes it (section 4.2), with `K = 0x6170766F` and all
arithmetic modulo `2 ^ 32`: `x ^= rotate_left(x,5) ^ rotate_right(x,7); x *= K;
x ^= rotate_left(x,13); x += rotate_right(x,11); x ^= rotate_right(x,17)`. -/
def spec_transform (x : Nat) : Nat :=
  let x := x ^^^ (spec_rotate_left x 5 ^^^ spec_rotate_right x 7)
  let x := (x * 0x6170766F) % 2 ^ 32
  let x := x ^^^ spec_rotate_left x 13
  let x := (x + spec_rotate_right x 11) % 2 ^ 32
  x ^^^ spec_rotate_right x 17

/-! ## The concrete scenario of the specification -/

/-- The key of the concrete scenario: the 8 ASCII bytes of `TESTKEY1`. -/
def test_key : List Nat := [0x54, 0x45, 0x53, 0x54, 0x4B, 0x45, 0x59, 0x31]

/-- The nonce of the concrete scenario: the bytes `0x00 .. 0x0F`. -/
def test_nonce : List Nat := List.range 16

/-- A block of 64 zero bytes. -/
def zero_block : List Nat := List.replicate 64 0

/-- The engine that `dove_init` returns on `test_key` and `test_nonce`
(`dove_init_test_engine`). -/
def test_engine : Engine :=
  { state := [1899115151, 2037703921, 2399591873, 3023479441, 1617174832, 2088400056,
      3346922494, 3099597014, 466722754, 3340875688, 704346622, 3155111282, 1978398228,
      203029088, 1772519673, 540136142],
    counter_high := 0,
    counter_low := 0 }

/-! ## The code with every access checked

The functions below are the functions above with every operation that C leaves undefined
outside a range replaced by a checked one: `%`, the reads of `key` and `nonce`, the reads and
writes of the 16-word arrays `temp`, `state` and `keystream`, the reads of the keystream
bytes, the updates of `data`, and the calls of `rotleft` and `rotright`.  A checked operation
performs the operation when its argument is in range and stops with a `Violation`
otherwise. -/

/-- The operation that was out of range. -/
inductive Violation where
  /-- A `%` with divisor zero. -/
  | modulo_by_zero
  /-- An index into `key` that is not below `key_length`. -/
  | key_index
  /-- An index into `nonce` above 15. -/
  | nonce_index
  /-- An index into `temp`, `state` or `keystream` that is not below `STATE_SIZE`. -/
  | word_index
  /-- An index into the bytes of `keystream` that is not below `BLOCK_SIZE`. -/
  | keystream_byte_index
  /-- An index into `data` that is not below `length`. -/
  | data_index
  /-- A rotation by a shift outside 1 .. 31. -/
  | rotation_shift
deriving DecidableEq

/-- Checked `a % divisor`. -/
def checked_mod (a divisor : Nat) : Except Violation Nat :=
  if divisor = 0 then Except.error Violation.modulo_by_zero else Except.ok (a % divisor)

/-- Checked read `key[idx]`. -/
def checked_key_read (key : List Nat) (idx : Nat) : Except Violation Nat :=
  if idx < key.length then Except.ok (key.getD idx 0) else Except.error Violation.key_index

/-- Checked read `nonce[idx]`: the index is at most 15 and inside the buffer handed in. -/
def checked_nonce_read (nonce : List Nat) (idx : Nat) : Except Violation Nat :=
  if idx ≤ 15 ∧ idx < nonce.length then Except.ok (nonce.getD idx 0)
  else Except.error Violation.nonce_index

/-- Checked read `w[idx]` of an array of `STATE_SIZE` words. -/
def checked_word_read (w : List Nat) (idx : Nat) : Except Violation Nat :=
  if idx < STATE_SIZE then Except.ok (w.getD idx 0) else Except.error Violation.word_index

/-- Checked write `w[idx] = v` of an array of `STATE_SIZE` words. -/
def checked_word_write (w : List Nat) (idx v : Nat) : Except Violation (List Nat) :=
  if idx < STATE_SIZE then Except.ok (w.set idx v) else Except.error Violation.word_index

/-- Checked read `((uint8_t*)keystream)[i]`. -/
def checked_keystream_byte (bo : Endian) (ks : List Nat) (i : Nat) : Except Violation Nat :=
  if i < BLOCK_SIZE then Except.ok (keystream_byte bo ks i)
  else Except.error Violation.keystream_byte_index

/-- Checked read `data[idx]` in a call with the given `length`: the index is below `length`
and inside the buffer handed in. -/
def checked_data_read (data : List Nat) (length idx : Nat) : Except Violation Nat :=
  if idx < length ∧ idx < data.length then Except.ok (data.getD idx 0)
  else Except.error Violation.data_index

/-- Checked write `data[idx] = v` in a call with the given `length`. -/
def checked_data_write (data : List Nat) (length idx v : Nat) : Except Violation (List Nat) :=
  if idx < length ∧ idx < data.length then Except.ok (data.set idx v)
  else Except.error Violation.data_index

/-- Checked `rotleft(value, shift)`: the shift is in 1 .. 31. -/
def checked_rotleft (value shift : Nat) : Except Violation Nat :=
  if 1 ≤ shift ∧ shift ≤ 31 then Except.ok (rotleft value shift)
  else Except.error Violation.rotation_shift

/-- Checked `rotright(value, shift)`: the shift is in 1 .. 31. -/
def checked_rotright (value shift : Nat) : Except Violation Nat :=
  if 1 ≤ shift ∧ shift ≤ 31 then Except.ok (rotright value shift)
  else Except.error Violation.rotation_shift

/-- Source `dove_mix` with checked rotations. -/
def checked_dove_mix (a b c : Nat) : Except Violation Nat := do
  let r1 ← checked_rotleft b 7
  let r2 ← checked_rotright c 13
  let a := a ^^^ (r1 ^^^ r2)
  let r1 ← checked_rotleft c 9
  let r2 ← checked_rotright a 11
  let b := b ^^^ (r1 ^^^ r2)
  let r1 ← checked_rotleft a 15
  let r2 ← checked_rotright b 5
  let c := c ^^^ (r1 ^^^ r2)
  let a := u32 (a * MULT)
  let r1 ← checked_rotleft c 13
  let b := u32 (b + r1)
  let r2 ← checked_rotright a 11
  let c := c ^^^ r2
  pure (a ^^^ b ^^^ c)

/-- Source `dove_transform` with checked rotations. -/
def checked_dove_transform (x : Nat) : Except Violation Nat := do
  let r1 ← checked_rotleft x 5
  let r2 ← checked_rotright x 7
  let x := x ^^^ (r1 ^^^ r2)
  let x := u32 (x * MULT)
  let r1 ← checked_rotleft x 13
  let x := x ^^^ r1
  let r2 ← checked_rotright x 11
  let x := u32 (x + r2)
  pure (x ^^^ ((x >>> 17) ||| u32 (x <<< 15)))

/-- The statements of `mix_word` with checked indices, `%` and rotations. -/
def checked_mix_word (w : List Nat) (i o1 o2 o3 : Nat) : Except Violation (List Nat) := do
  let x ← checked_word_read w i
  let t ← checked_dove_transform x
  let w ← checked_word_write w i t
  let i1 ← checked_mod (i + o1) STATE_SIZE
  let a ← checked_word_read w i1
  let i2 ← checked_mod (i + o2) STATE_SIZE
  let b ← checked_word_read w i2
  let i3 ← checked_mod (i + o3) STATE_SIZE
  let c ← checked_word_read w i3
  let m ← checked_dove_mix a b c
  let x ← checked_word_read w i
  checked_word_write w i (x ^^^ m)

/-- The loop of `column_pass`, checked. -/
def checked_column_pass (w : List Nat) : Except Violation (List Nat) :=
  (List.range STATE_SIZE).foldlM (fun w i => checked_mix_word w i 1 7 13) w

/-- The loop of `diagonal_pass`, checked. -/
def checked_diagonal_pass (w : List Nat) : Except Violation (List Nat) :=
  (List.range STATE_SIZE).foldlM
    (fun w i => do
      let idx ← checked_mod (i * 5) STATE_SIZE
      checked_mix_word w idx 3 9 14) w

/-- The read `key[idx % key_length]`, checked. -/
def checked_key_byte (key : List Nat) (idx : Nat) : Except Violation Nat := do
  let j ← checked_mod idx key.length
  checked_key_read key j

/-- Lines 50-53, checked: the initial value of `temp[i]`. -/
def checked_key_word (key : List Nat) (i : Nat) : Except Violation Nat := do
  let b0 ← checked_key_byte key i
  let b1 ← checked_key_byte key (i + 1)
  let b2 ← checked_key_byte key (i + 2)
  let b3 ← checked_key_byte key (i + 3)
  pure (pack_be b0 b1 b2 b3)

/-- Lines 58-61, checked: `nonce_word` for loop index `i`. -/
def checked_nonce_word (nonce : List Nat) (i : Nat) : Except Violation Nat := do
  let b0 ← checked_nonce_read nonce (i * 4)
  let b1 ← checked_nonce_read nonce (i * 4 + 1)
  let b2 ← checked_nonce_read nonce (i * 4 + 2)
  let b3 ← checked_nonce_read nonce (i * 4 + 3)
  pure (pack_be b0 b1 b2 b3)

/-- Lines 63-65, checked. -/
def checked_nonce_fold (temp : List Nat) (nw : Nat) : Except Violation (List Nat) :=
  (List.range STATE_SIZE).foldlM
    (fun t j => do
      let x ← checked_word_read t j
      let r ← checked_dove_transform (u32 (nw + j))
      checked_word_write t j (x ^^^ r)) temp

/-- Lines 69-78, checked. -/
def checked_diffuse (temp : List Nat) : Except Violation (List Nat) :=
  (List.range ROUNDS).foldlM (fun t _ => checked_column_pass t) temp

/-- Source `key_schedule`, checked.  The array `temp` starts as 16 words whose value is
never read before it is written. -/
def checked_key_schedule (key nonce : List Nat) : Except Violation (List Nat) := do
  let temp ← (List.range STATE_SIZE).foldlM
    (fun t i => do
      let v ← checked_key_word key i
      checked_word_write t i v) (List.replicate STATE_SIZE 0)
  let temp ← (List.range 4).foldlM
    (fun t i => do
      let nw ← checked_nonce_word nonce i
      checked_nonce_fold t nw) temp
  checked_diffuse temp

/-- Source `dove_init`, checked. -/
def checked_dove_init (_e : Engine) (key nonce : List Nat) : Except Violation Engine := do
  let st ← checked_key_schedule key nonce
  pure { state := st, counter_high := 0, counter_low := 0 }

/-- Lines 98-101, checked. -/
def checked_add_counter (ks : List Nat) (counter_low counter_high : Nat) :
    Except Violation (List Nat) :=
  (List.range STATE_SIZE).foldlM
    (fun ks i => do
      let x ← checked_word_read ks i
      let r ← checked_dove_transform (u32 (counter_low + i))
      let ks ← checked_word_write ks i (x ^^^ r)
      let x ← checked_word_read ks i
      let r ← checked_dove_transform (u32 (counter_high + i))
      checked_word_write ks i (x ^^^ r)) ks

/-- Lines 104-125, checked. -/
def checked_crypt_rounds (ks : List Nat) : Except Violation (List Nat) :=
  (List.range ROUNDS).foldlM
    (fun ks _ => do
      let ks ← checked_column_pass ks
      checked_diagonal_pass ks) ks

/-- Lines 95-125, checked. -/
def checked_keystream_block (e : Engine) : Except Violation (List Nat) := do
  let ks ← checked_add_counter e.state e.counter_low e.counter_high
  checked_crypt_rounds ks

/-- Lines 131-133, checked. -/
def checked_xor_block (bo : Endian) (ks data : List Nat) (length processed block_size : Nat) :
    Except Violation (List Nat) :=
  (List.range block_size).foldlM
    (fun d i => do
      let x ← checked_data_read d length (processed + i)
      let k ← checked_keystream_byte bo ks i
      checked_data_write d length (processed + i) (x ^^^ k)) data

/-- Lines 142-149, checked. -/
def checked_ratchet (state ks : List Nat) : Except Violation (List Nat) :=
  (List.range STATE_SIZE).foldlM
    (fun st i => do
      let x ← checked_word_read st i
      let k ← checked_word_read ks i
      let t ← checked_dove_transform (x ^^^ k)
      let st ← checked_word_write st i t
      let i1 ← checked_mod (i + 1) STATE_SIZE
      let a ← checked_word_read st i1
      let i2 ← checked_mod (i + 7) STATE_SIZE
      let b ← checked_word_read st i2
      let i3 ← checked_mod (i + 13) STATE_SIZE
      let c ← checked_word_read st i3
      let m ← checked_dove_mix a b c
      let x ← checked_word_read st i
      checked_word_write st i (x ^^^ m)) state

/-- Lines 136-149, checked. -/
def checked_advance (e : Engine) (ks : List Nat) : Except Violation Engine := do
  let counter_low := u32 (e.counter_low + 1)
  let counter_high := if counter_low = 0 then u32 (e.counter_high + 1) else e.counter_high
  let st ← checked_ratchet e.state ks
  pure { state := st, counter_high := counter_high, counter_low := counter_low }

/-- The loop of `dove_crypt`, checked, with the iteration bound of `crypt_loop`. -/
def checked_crypt_loop (bo : Endian) :
    Nat → Engine → List Nat → Nat → Nat → Except Violation (Engine × List Nat)
  | 0, e, data, _, _ => Except.ok (e, data)
  | fuel + 1, e, data, length, processed =>
    if processed < length then do
      let ks ← checked_keystream_block e
      let block_size := if length - processed < BLOCK_SIZE then length - processed
        else BLOCK_SIZE
      let data ← checked_xor_block bo ks data length processed block_size
      let e ← checked_advance e ks
      checked_crypt_loop bo fuel e data length (processed + block_size)
    else Except.ok (e, data)

/-- Source `dove_crypt(data, length)`, checked. -/
def checked_dove_crypt (bo : Endian) (e : Engine) (data : List Nat) (length : Nat) :
    Except Violation (Engine × List Nat) :=
  checked_crypt_loop bo length e data length 0

/-! ## Lemmas on `dove_transform` -/

theorem testBit_of_lt_word (x : Nat) (hx : x < 2 ^ 32) (i : Nat) (hi : 32 ≤ i) :
    x.testBit i = false :=
  Nat.testBit_lt_two_pow (Nat.lt_of_lt_of_le hx (Nat.pow_le_pow_right (by norm_num) hi))

theorem testBit_rotleft (x s : Nat) (hx : x < 2 ^ 32) (hs : 0 < s) (hs2 : s < 32) (i : Nat) :
    (rotleft x s).testBit i = (decide (i < 32) && x.testBit ((i + (32 - s)) % 32)) := by
  unfold rotleft u32 WORD_SIZE
  rw [Nat.testBit_or, Nat.testBit_mod_two_pow, Nat.testBit_shiftLeft, Nat.testBit_shiftRight]
  by_cases hi : i < 32
  · by_cases his : s ≤ i
    · have e1 : (i + (32 - s)) % 32 = i - s := by omega
      rw [e1, testBit_of_lt_word x hx (32 - s + i) (by omega)]
      simp [hi, his]
    · have e1 : (i + (32 - s)) % 32 = 32 - s + i := by omega
      rw [e1]
      simp [hi, his]
  · rw [testBit_of_lt_word x hx (32 - s + i) (by omega)]
    simp [hi]

theorem testBit_rotright (x s : Nat) (hx : x < 2 ^ 32) (hs : 0 < s) (hs2 : s < 32) (i : Nat) :
    (rotright x s).testBit i = (decide (i < 32) && x.testBit ((i + s) % 32)) := by
  unfold rotright u32 WORD_SIZE
  rw [Nat.testBit_or, Nat.testBit_mod_two_pow, Nat.testBit_shiftLeft, Nat.testBit_shiftRight]
  by_cases hi : i < 32
  · by_cases his : 32 - s ≤ i
    · have e1 : (i + s) % 32 = i - (32 - s) := by omega
      rw [e1, testBit_of_lt_word x hx (s + i) (by omega)]
      simp [hi, his]
    · have e1 : (i + s) % 32 = s + i := by omega
      rw [e1]
      simp [hi, his]
  · rw [testBit_of_lt_word x hx (s + i) (by omega)]
    simp [hi]

theorem lt_word_of_bits (y : Nat) (f : Nat → Bool)
    (h : ∀ i, y.testBit i = (decide (i < 32) && f i)) : y < 2 ^ 32 := by
  apply Nat.lt_pow_two_of_testBit
  intro i hi
  rw [h i]
  simp
  omega

theorem step1_bits (y : Nat) (f : Nat → Bool)
    (h : ∀ i, y.testBit i = (decide (i < 32) && f i)) (i : Nat) :
    (transform_step1 y).testBit i = (decide (i < 32) && rot_xor_bits 27 7 f i) := by
  have hy := lt_word_of_bits y f h
  unfold transform_step1 rot_xor_bits
  rw [Nat.testBit_xor, Nat.testBit_xor, testBit_rotleft y 5 hy (by omega) (by omega),
    testBit_rotright y 7 hy (by omega) (by omega), h i, h ((i + (32 - 5)) % 32),
    h ((i + 7) % 32)]
  have h1 : (i + (32 - 5)) % 32 < 32 := Nat.mod_lt _ (by omega)
  have h2 : (i + 7) % 32 < 32 := Nat.mod_lt _ (by omega)
  by_cases hi : i < 32
  · rw [Nat.mod_eq_of_lt hi]
    simp [hi, h1, h2]
  · simp [hi]

theorem step2_left_inverse (x : Nat) (hx : x < 2 ^ 32) :
    u32 (transform_step2 x * 2237376655) = x := by
  unfold transform_step2 u32 MULT
  rw [Nat.mod_mul_mod, Nat.mul_assoc]
  norm_num at hx ⊢
  omega

theorem step2_right_inverse (x : Nat) (hx : x < 2 ^ 32) :
    transform_step2 (u32 (x * 2237376655)) = x := by
  unfold transform_step2 u32 MULT
  rw [Nat.mod_mul_mod, Nat.mul_assoc]
  norm_num at hx ⊢
  omega

theorem rot_xor_bits_sq (a b : Nat) (f : Nat → Bool) :
    rot_xor_bits a b (rot_xor_bits a b f) = rot_xor_bits (2 * a) (2 * b) f := by
  funext i
  simp only [rot_xor_bits]
  have e0 : i % 32 % 32 = i % 32 := by omega
  have e1 : ((i + a) % 32 + a) % 32 = (i + 2 * a) % 32 := by omega
  have e2 : ((i + a) % 32 + b) % 32 = (i + a + b) % 32 := by omega
  have e3 : ((i + b) % 32 + a) % 32 = (i + a + b) % 32 := by omega
  have e4 : ((i + b) % 32 + b) % 32 = (i + 2 * b) % 32 := by omega
  have e5 : (i % 32 + a) % 32 = (i + a) % 32 := by omega
  have e6 : (i % 32 + b) % 32 = (i + b) % 32 := by omega
  have e7 : (i + a) % 32 % 32 = (i + a) % 32 := by omega
  have e8 : (i + b) % 32 % 32 = (i + b) % 32 := by omega
  rw [e0, e1, e2, e3, e4, e5, e6, e7, e8]
  cases f (i % 32) <;> cases f ((i + a) % 32) <;> cases f ((i + b) % 32) <;>
    cases f ((i + 2 * a) % 32) <;> cases f ((i + a + b) % 32) <;>
    cases f ((i + 2 * b) % 32) <;> rfl

theorem rot_xor_bits_eight (f : Nat → Bool) :
    rot_xor_bits 27 7 (rot_xor_bits 27 7 (rot_xor_bits 27 7 (rot_xor_bits 27 7
      (rot_xor_bits 27 7 (rot_xor_bits 27 7 (rot_xor_bits 27 7 (rot_xor_bits 27 7 f))))))) =
      fun i => f (i % 32) := by
  simp only [rot_xor_bits_sq]
  funext i
  simp only [rot_xor_bits]
  have e1 : (i + 2 * (2 * (2 * 27))) % 32 = (i + 2 * (2 * (2 * 7))) % 32 := by omega
  rw [e1]
  cases f (i % 32) <;> cases f ((i + 2 * (2 * (2 * 7))) % 32) <;> rfl

theorem step1_eight (x : Nat) (hx : x < 2 ^ 32) :
    transform_step1 (step1_inverse x) = x := by
  have h0 : ∀ i, x.testBit i = (decide (i < 32) && x.testBit i) := by
    intro i
    by_cases hi : i < 32
    · simp [hi]
    · rw [testBit_of_lt_word x hx i (by omega)]
      simp
  have h8 := step1_bits _ _ (step1_bits _ _ (step1_bits _ _ (step1_bits _ _
    (step1_bits _ _ (step1_bits _ _ (step1_bits _ _ (step1_bits x _ h0)))))))
  rw [rot_xor_bits_eight] at h8
  apply Nat.eq_of_testBit_eq
  intro i
  unfold step1_inverse
  rw [h8 i]
  by_cases hi : i < 32
  · simp [hi, Nat.mod_eq_of_lt hi]
  · rw [testBit_of_lt_word x hx i (by omega)]
    simp [hi]

/-! ## Lemmas on the key schedule -/

theorem key_byte_ok (key : List Nat) (hk : key ≠ []) (idx : Nat) :
    key_byte key idx = Except.ok (key.getD (idx % key.length) 0) := by
  have hl : 0 < key.length := List.length_pos.mpr hk
  unfold key_byte
  rw [if_neg (by omega), List.getD_eq_getElem?_getD,
    List.getElem?_eq_getElem (Nat.mod_lt idx hl)]
  rfl

theorem key_byte_empty (idx : Nat) : key_byte [] idx = Except.error Fault.modByZero := rfl

theorem nonce_byte_ok (nonce : List Nat) (idx : Nat) (h : idx < nonce.length) :
    nonce_byte nonce idx = Except.ok (nonce.getD idx 0) := by
  unfold nonce_byte
  rw [List.getD_eq_getElem?_getD, List.getElem?_eq_getElem h]
  rfl

theorem key_word_ok (key : List Nat) (hk : key ≠ []) (i : Nat) :
    key_word key i = Except.ok (pack_be (key.getD (i % key.length) 0)
      (key.getD ((i + 1) % key.length) 0) (key.getD ((i + 2) % key.length) 0)
      (key.getD ((i + 3) % key.length) 0)) := by
  unfold key_word
  rw [key_byte_ok key hk, key_byte_ok key hk, key_byte_ok key hk, key_byte_ok key hk]
  rfl

theorem nonce_word_ok (nonce : List Nat) (hn : nonce.length = 16) (i : Nat) (hi : i < 4) :
    nonce_word nonce i = Except.ok (nonce_word_value nonce i) := by
  unfold nonce_word
  rw [nonce_byte_ok nonce _ (by omega), nonce_byte_ok nonce _ (by omega),
    nonce_byte_ok nonce _ (by omega), nonce_byte_ok nonce _ (by omega)]
  rfl

theorem mapM_ok (f : Nat → Except Fault Nat) (g : Nat → Nat) (l : List Nat)
    (h : ∀ i, f i = Except.ok (g i)) : l.mapM f = Except.ok (l.map g) := by
  induction l with
  | nil => rfl
  | cons a l ih =>
    rw [List.mapM_cons, h a, ih]
    rfl

theorem key_schedule_ok (key nonce : List Nat) (hk : key ≠ []) (hn : nonce.length = 16) :
    key_schedule key nonce = Except.ok (diffuse (nonce_fold (nonce_fold (nonce_fold
      (nonce_fold (key_words key) (nonce_word_value nonce 0)) (nonce_word_value nonce 1))
      (nonce_word_value nonce 2)) (nonce_word_value nonce 3))) := by
  unfold key_schedule
  rw [mapM_ok (key_word key) _ _ (key_word_ok key hk)]
  have hr : List.range 4 = [0, 1, 2, 3] := rfl
  rw [hr]
  simp only [List.foldlM_cons, List.foldlM_nil]
  rw [nonce_word_ok nonce hn 0 (by omega), nonce_word_ok nonce hn 1 (by omega),
    nonce_word_ok nonce hn 2 (by omega), nonce_word_ok nonce hn 3 (by omega)]
  rfl

theorem key_schedule_empty (nonce : List Nat) :
    key_schedule [] nonce = Except.error Fault.modByZero := rfl

theorem foldl_length {α : Type} (f : List Nat → α → List Nat) (l : List α)
    (h : ∀ w a, (f w a).length = w.length) (w : List Nat) :
    (l.foldl f w).length = w.length := by
  induction l generalizing w with
  | nil => rfl
  | cons a l ih => rw [List.foldl_cons, ih, h]

theorem length_mix_word (w : List Nat) (i o1 o2 o3 : Nat) :
    (mix_word w i o1 o2 o3).length = w.length := by
  simp [mix_word]

theorem length_column_pass (w : List Nat) : (column_pass w).length = w.length :=
  foldl_length _ _ (fun w i => length_mix_word w i 1 7 13) w

theorem length_diffuse (w : List Nat) : (diffuse w).length = w.length :=
  foldl_length _ _ (fun w _ => length_column_pass w) w

theorem length_nonce_fold (w : List Nat) (nw : Nat) : (nonce_fold w nw).length = w.length :=
  foldl_length _ _ (fun w j => by simp) w

theorem length_key_words (key : List Nat) : (key_words key).length = 16 := by
  simp [key_words, STATE_SIZE]

theorem getElem?_flatten_replicate (key : List Nat) (m j : Nat) (hj : j < m * key.length) :
    (List.replicate m key).flatten[j]? = key[j % key.length]? := by
  induction m generalizing j with
  | zero => omega
  | succ m ih =>
    rw [List.replicate_succ, List.flatten_cons, List.getElem?_append]
    by_cases h : j < key.length
    · rw [if_pos h, Nat.mod_eq_of_lt h]
    · have hlt : j - key.length < m * key.length := by
        rw [Nat.succ_mul] at hj
        omega
      have hmod : (j - key.length) % key.length = j % key.length := by
        have h2 : j = (j - key.length) + key.length := by omega
        conv_rhs => rw [h2, Nat.add_mod_right]
      rw [if_neg h, ih _ hlt, hmod]

theorem length_flatten_replicate (key : List Nat) (m : Nat) :
    (List.replicate m key).flatten.length = m * key.length := by
  induction m with
  | zero => simp
  | succ m ih =>
    rw [List.replicate_succ, List.flatten_cons, List.length_append, ih, Nat.succ_mul]
    omega

theorem key_byte_repeat (key : List Nat) (m : Nat) (hk : key ≠ []) (hm : 1 ≤ m) (idx : Nat) :
    key_byte (List.replicate m key).flatten idx = key_byte key idx := by
  have hl : 0 < key.length := List.length_pos.mpr hk
  have hpos : 0 < m * key.length := Nat.mul_pos (by omega) hl
  unfold key_byte
  rw [length_flatten_replicate, if_neg (by omega), if_neg (by omega),
    getElem?_flatten_replicate key m _ (Nat.mod_lt idx hpos), Nat.mod_mul_left_mod]

/-! ## Lemmas on the block loop -/

theorem length_xor_block (bo : Endian) (ks data : List Nat) (p n : Nat) :
    (xor_block bo ks data p n).length = data.length := by
  induction n with
  | zero => simp [xor_block]
  | succ n ih =>
    unfold xor_block at ih ⊢
    rw [List.range_succ, List.foldl_append]
    simp only [List.foldl_cons, List.foldl_nil, List.length_set]
    exact ih

theorem getElem?_xor_block (bo : Endian) (ks data : List Nat) (p n j : Nat) :
    (xor_block bo ks data p n)[j]? =
      if p ≤ j ∧ j < p + n then data[j]?.map (fun b => b ^^^ keystream_byte bo ks (j - p))
      else data[j]? := by
  induction n with
  | zero =>
    have h : ¬ (p ≤ j ∧ j < p + 0) := by omega
    rw [if_neg h]
    simp [xor_block]
  | succ n ih =>
    have hlen := length_xor_block bo ks data p n
    unfold xor_block at ih hlen ⊢
    rw [List.range_succ, List.foldl_append]
    simp only [List.foldl_cons, List.foldl_nil]
    rw [List.getElem?_set, hlen]
    by_cases hj : p + n = j
    · subst hj
      rw [if_pos rfl, List.getD_eq_getElem?_getD, ih]
      have h1 : ¬ (p ≤ p + n ∧ p + n < p + n) := by omega
      have h2 : p ≤ p + n ∧ p + n < p + (n + 1) := by omega
      rw [if_neg h1, if_pos h2]
      by_cases hl : p + n < data.length
      · rw [if_pos hl, List.getElem?_eq_getElem hl]
        simp
      · rw [if_neg hl, List.getElem?_eq_none (by omega)]
        simp
    · rw [if_neg hj, ih]
      by_cases h : p ≤ j ∧ j < p + n
      · have h2 : p ≤ j ∧ j < p + (n + 1) := by omega
        rw [if_pos h, if_pos h2]
      · have h2 : ¬ (p ≤ j ∧ j < p + (n + 1)) := by omega
        rw [if_neg h, if_neg h2]

theorem stream_byte_lt (bo : Endian) (e : Engine) (k : Nat) (hk : k < 64) :
    stream_byte bo e k = keystream_byte bo (keystream_block e) k := by
  unfold stream_byte
  simp only [BLOCK_SIZE]
  rw [Nat.div_eq_of_lt hk, Nat.mod_eq_of_lt hk]
  rfl

theorem stream_byte_add (bo : Endian) (e : Engine) (k : Nat) :
    stream_byte bo e (k + 64) = stream_byte bo (next_block e) k := by
  unfold stream_byte
  simp only [BLOCK_SIZE]
  have h1 : (k + 64) / 64 = k / 64 + 1 := by omega
  have h2 : (k + 64) % 64 = k % 64 := by omega
  rw [h1, h2]
  rfl

theorem after_blocks_add (m n : Nat) (e : Engine) :
    after_blocks (m + n) e = after_blocks n (after_blocks m e) := by
  induction m generalizing e with
  | zero => simp [after_blocks]
  | succ m ih =>
    have h : m + 1 + n = (m + n) + 1 := by omega
    rw [h]
    simp only [after_blocks]
    exact ih (next_block e)

theorem stream_byte_after (bo : Endian) (e : Engine) (m k : Nat) :
    stream_byte bo (after_blocks m e) k = stream_byte bo e (64 * m + k) := by
  unfold stream_byte
  simp only [BLOCK_SIZE]
  have h1 : (64 * m + k) / 64 = m + k / 64 := by omega
  have h2 : (64 * m + k) % 64 = k % 64 := by omega
  rw [h1, h2, after_blocks_add]

theorem crypt_loop_done (bo : Endian) (fuel : Nat) (e : Engine) (data : List Nat)
    (length p : Nat) (h : length ≤ p) : crypt_loop bo fuel e data length p = (e, data) := by
  cases fuel with
  | zero => rfl
  | succ fuel =>
    unfold crypt_loop
    rw [if_neg (by omega)]

theorem crypt_loop_engine (bo : Endian) (length : Nat) :
    ∀ (fuel : Nat) (e : Engine) (data : List Nat) (p : Nat), length - p ≤ fuel →
      (crypt_loop bo fuel e data length p).1 = after_blocks ((length - p + 63) / 64) e := by
  intro fuel
  induction fuel with
  | zero =>
    intro e data p h
    have h0 : (length - p + 63) / 64 = 0 := by omega
    rw [h0]
    rfl
  | succ fuel ih =>
    intro e data p h
    unfold crypt_loop
    by_cases hp : p < length
    · rw [if_pos hp]
      simp only [BLOCK_SIZE]
      by_cases hb : length - p < 64
      · rw [if_pos hb, ih _ _ _ (by omega)]
        have h1 : (length - (p + (length - p)) + 63) / 64 = 0 := by omega
        have h2 : (length - p + 63) / 64 = 0 + 1 := by omega
        rw [h1, h2]
        rfl
      · rw [if_neg hb, ih _ _ _ (by omega)]
        have h2 : (length - p + 63) / 64 = (length - (p + 64) + 63) / 64 + 1 := by omega
        rw [h2]
        rfl
    · rw [if_neg hp]
      have h0 : (length - p + 63) / 64 = 0 := by omega
      rw [h0]
      rfl

theorem getElem?_crypt_loop (bo : Endian) (length : Nat) :
    ∀ (fuel : Nat) (e : Engine) (data : List Nat) (p j : Nat), length - p ≤ fuel →
      (crypt_loop bo fuel e data length p).2[j]? =
        if p ≤ j ∧ j < length then data[j]?.map (fun b => b ^^^ stream_byte bo e (j - p))
        else data[j]? := by
  intro fuel
  induction fuel with
  | zero =>
    intro e data p j h
    have h0 : ¬ (p ≤ j ∧ j < length) := by omega
    rw [if_neg h0]
    rfl
  | succ fuel ih =>
    intro e data p j h
    unfold crypt_loop
    by_cases hp : p < length
    · rw [if_pos hp]
      simp only [BLOCK_SIZE]
      by_cases hb : length - p < 64
      · rw [if_pos hb, ih _ _ _ _ (by omega), getElem?_xor_block]
        have h1 : ¬ (p + (length - p) ≤ j ∧ j < length) := by omega
        rw [if_neg h1]
        by_cases hj : p ≤ j ∧ j < length
        · have h2 : p ≤ j ∧ j < p + (length - p) := by omega
          rw [if_pos hj, if_pos h2, stream_byte_lt bo e (j - p) (by omega)]
        · have h2 : ¬ (p ≤ j ∧ j < p + (length - p)) := by omega
          rw [if_neg hj, if_neg h2]
      · rw [if_neg hb, ih _ _ _ _ (by omega), getElem?_xor_block]
        by_cases hj : p + 64 ≤ j ∧ j < length
        · have h2 : ¬ (p ≤ j ∧ j < p + 64) := by omega
          have h3 : p ≤ j ∧ j < length := by omega
          have h4 : j - p = (j - (p + 64)) + 64 := by omega
          rw [if_pos hj, if_neg h2, if_pos h3, h4, stream_byte_add]
          rfl
        · rw [if_neg hj]
          by_cases hj2 : p ≤ j ∧ j < p + 64
          · have h3 : p ≤ j ∧ j < length := by omega
            rw [if_pos hj2, if_pos h3, stream_byte_lt bo e (j - p) (by omega)]
          · have h3 : ¬ (p ≤ j ∧ j < length) := by omega
            rw [if_neg hj2, if_neg h3]
    · rw [if_neg hp]
      have h0 : ¬ (p ≤ j ∧ j < length) := by omega
      rw [if_neg h0]

theorem length_crypt_loop (bo : Endian) (length : Nat) :
    ∀ (fuel : Nat) (e : Engine) (data : List Nat) (p : Nat),
      (crypt_loop bo fuel e data length p).2.length = data.length := by
  intro fuel
  induction fuel with
  | zero => intro e data p; rfl
  | succ fuel ih =>
    intro e data p
    unfold crypt_loop
    by_cases hp : p < length
    · rw [if_pos hp]
      simp only []
      rw [ih, length_xor_block]
    · rw [if_neg hp]

/-- The engine after a call: one block iteration per started block of 64 bytes. -/
theorem dove_crypt_engine (bo : Endian) (e : Engine) (data : List Nat) (length : Nat) :
    (dove_crypt bo e data length).1 = after_blocks ((length + 63) / 64) e := by
  unfold dove_crypt
  rw [crypt_loop_engine bo length length e data 0 (by omega)]
  rfl

/-- The buffer after a call, byte by byte. -/
theorem getElem?_dove_crypt (bo : Endian) (e : Engine) (data : List Nat) (length j : Nat) :
    (dove_crypt bo e data length).2[j]? =
      if j < length then data[j]?.map (fun b => b ^^^ stream_byte bo e j) else data[j]? := by
  unfold dove_crypt
  rw [getElem?_crypt_loop bo length length e data 0 j (by omega)]
  by_cases hj : j < length
  · rw [if_pos hj, if_pos ⟨Nat.zero_le j, hj⟩]
    rfl
  · have h : ¬ (0 ≤ j ∧ j < length) := by omega
    rw [if_neg hj, if_neg h]

theorem length_dove_crypt (bo : Endian) (e : Engine) (data : List Nat) (length : Nat) :
    (dove_crypt bo e data length).2.length = data.length :=
  length_crypt_loop bo length length e data 0

/-- The bound on the iterations of `crypt_loop` is never reached: any larger bound gives the
same engine and buffer. -/
theorem crypt_loop_fuel (bo : Endian) (fuel : Nat) (e : Engine) (data : List Nat)
    (length : Nat) (h : length ≤ fuel) :
    crypt_loop bo fuel e data length 0 = dove_crypt bo e data length := by
  apply Prod.ext
  · rw [dove_crypt_engine, crypt_loop_engine bo length fuel e data 0 (by omega)]
    rfl
  · apply List.ext_getElem?
    intro j
    unfold dove_crypt
    rw [getElem?_crypt_loop bo length fuel e data 0 j (by omega),
      getElem?_crypt_loop bo length length e data 0 j (by omega)]

theorem getElem?_keystream (bo : Endian) (e : Engine) (n j : Nat) :
    (keystream bo e n)[j]? = if j < n then some (stream_byte bo e j) else none := by
  unfold keystream
  rw [List.getElem?_map]
  by_cases hj : j < n
  · rw [if_pos hj, List.getElem?_range hj]
    rfl
  · rw [if_neg hj, List.getElem?_eq_none (by simpa using hj)]
    rfl

theorem getElem?_xor_bytes (a b : List Nat) (j : Nat) :
    (xor_bytes a b)[j]? =
      match a[j]?, b[j]? with
      | some x, some y => some (x ^^^ y)
      | _, _ => none := by
  unfold xor_bytes
  rw [List.getElem?_zipWith]
  cases a[j]? <;> cases b[j]? <;> rfl

/-- The output of a call on a whole buffer is the buffer exclusive-ored with `keystream`. -/
theorem dove_crypt_eq_xor (bo : Endian) (e : Engine) (d : List Nat) :
    (dove_crypt bo e d d.length).2 = xor_bytes d (keystream bo e d.length) := by
  apply List.ext_getElem?
  intro j
  rw [getElem?_dove_crypt, getElem?_xor_bytes, getElem?_keystream]
  by_cases hj : j < d.length
  · rw [if_pos hj, if_pos hj, List.getElem?_eq_getElem hj]
    rfl
  · rw [if_neg hj, if_neg hj, List.getElem?_eq_none (by omega)]

theorem length_keystream (bo : Endian) (e : Engine) (n : Nat) :
    (keystream bo e n).length = n := by
  simp [keystream]

theorem xor_bytes_cancel (d k : List Nat) (h : d.length ≤ k.length) :
    xor_bytes (xor_bytes d k) k = d := by
  apply List.ext_getElem?
  intro j
  rw [getElem?_xor_bytes, getElem?_xor_bytes]
  by_cases hj : j < d.length
  · rw [List.getElem?_eq_getElem hj, List.getElem?_eq_getElem (show j < k.length by omega)]
    simp only []
    rw [Nat.xor_cancel_right]
  · rw [List.getElem?_eq_none (show d.length ≤ j by omega)]

theorem xor_bytes_cancel_left (d k : List Nat) (h : k.length ≤ d.length) :
    xor_bytes (xor_bytes d k) d = k := by
  apply List.ext_getElem?
  intro j
  rw [getElem?_xor_bytes, getElem?_xor_bytes]
  by_cases hj : j < k.length
  · rw [List.getElem?_eq_getElem hj, List.getElem?_eq_getElem (show j < d.length by omega)]
    simp only []
    rw [Nat.xor_comm, ← Nat.xor_assoc, Nat.xor_self, Nat.zero_xor]
  · rw [List.getElem?_eq_none (show k.length ≤ j by omega)]
    cases d[j]? <;> rfl

theorem crypt_calls_lengths (bo : Endian) (s : Engine) (bufs : List (List Nat)) :
    (crypt_calls bo s bufs).2.map List.length = bufs.map List.length := by
  induction bufs generalizing s with
  | nil => rfl
  | cons d ds ih =>
    simp only [crypt_calls, List.map_cons, length_dove_crypt]
    rw [ih]

theorem dove_crypt_twice (bo : Endian) (s : Engine) (d : List Nat) :
    dove_crypt bo s (dove_crypt bo s d d.length).2 (dove_crypt bo s d d.length).2.length =
      ((dove_crypt bo s d d.length).1, d) := by
  rw [length_dove_crypt]
  apply Prod.ext
  · rw [dove_crypt_engine, dove_crypt_engine]
  · have h := dove_crypt_eq_xor bo s (dove_crypt bo s d d.length).2
    rw [length_dove_crypt] at h
    rw [h, dove_crypt_eq_xor]
    exact xor_bytes_cancel d _ (by rw [length_keystream])

theorem counter_next_block (e : Engine) (hlo : e.counter_low < 2 ^ 32)
    (hhi : e.counter_high < 2 ^ 32) :
    (next_block e).counter = (e.counter + 1) % 2 ^ 64 ∧
      (next_block e).counter_low < 2 ^ 32 ∧ (next_block e).counter_high < 2 ^ 32 := by
  simp only [Engine.counter, next_block, advance, u32]
  norm_num at hlo hhi ⊢
  split <;> omega

theorem counter_after_blocks (n : Nat) :
    ∀ e : Engine, e.counter_low < 2 ^ 32 → e.counter_high < 2 ^ 32 →
      (after_blocks n e).counter = (e.counter + n) % 2 ^ 64 ∧
        (after_blocks n e).counter_low < 2 ^ 32 ∧ (after_blocks n e).counter_high < 2 ^ 32 := by
  induction n with
  | zero =>
    intro e hlo hhi
    refine ⟨?_, hlo, hhi⟩
    simp only [after_blocks, Engine.counter]
    norm_num at hlo hhi ⊢
    omega
  | succ n ih =>
    intro e hlo hhi
    obtain ⟨h1, h2, h3⟩ := counter_next_block e hlo hhi
    obtain ⟨h4, h5, h6⟩ := ih (next_block e) h2 h3
    refine ⟨?_, h5, h6⟩
    simp only [after_blocks]
    rw [h4, h1]
    norm_num
    omega

/-! ## Processing: involution, keystream, chunking, partial blocks, counter -/

/-- C1. Involution: from every engine state `s`, when the buffers `bufs` are processed by
successive `dove_crypt` calls and the resulting buffers are processed again from `s` with the
same call lengths, the second run returns the original buffers (and ends in the same
engine). -/
theorem crypt_involution (bo : Endian) (s : Engine) (bufs : List (List Nat)) :
    (crypt_calls bo s bufs).2.map List.length = bufs.map List.length ∧
      crypt_calls bo s (crypt_calls bo s bufs).2 = ((crypt_calls bo s bufs).1, bufs) := by
  refine ⟨crypt_calls_lengths bo s bufs, ?_⟩
  induction bufs generalizing s with
  | nil => rfl
  | cons d ds ih =>
    simp only [crypt_calls]
    rw [dove_crypt_twice]
    simp only []
    rw [ih]

/-- C3. The keystream does not depend on the data: for two buffers of the same length
processed from the same engine state, the final engines (state and counter) are equal, the
outputs exclusive-ored with their inputs are equal, and each output is its input
exclusive-ored with `keystream`, which is computed from the engine state and the length. -/
theorem keystream_independent_of_data (bo : Endian) (s : Engine) (d1 d2 : List Nat)
    (h : d1.length = d2.length) :
    (dove_crypt bo s d1 d1.length).1 = (dove_crypt bo s d2 d2.length).1 ∧
      xor_bytes (dove_crypt bo s d1 d1.length).2 d1 =
        xor_bytes (dove_crypt bo s d2 d2.length).2 d2 ∧
      (dove_crypt bo s d1 d1.length).2 = xor_bytes d1 (keystream bo s d1.length) ∧
      (dove_crypt bo s d2 d2.length).2 = xor_bytes d2 (keystream bo s d1.length) := by
  refine ⟨?_, ?_, dove_crypt_eq_xor bo s d1, ?_⟩
  · rw [dove_crypt_engine, dove_crypt_engine, h]
  · rw [dove_crypt_eq_xor, dove_crypt_eq_xor,
      xor_bytes_cancel_left d1 _ (by rw [length_keystream]),
      xor_bytes_cancel_left d2 _ (by rw [length_keystream]), h]
  · rw [h]
    exact dove_crypt_eq_xor bo s d2

/-- Witness of C3 on the zeroed engine and two buffers of three bytes. -/
theorem keystream_independent_of_data_witness :
    [1, 2, 3].length = [7, 8, 9].length ∧
      (dove_crypt Endian.little (dove_reset ⟨[], 0, 0⟩) [1, 2, 3] [1, 2, 3].length).1 =
        (dove_crypt Endian.little (dove_reset ⟨[], 0, 0⟩) [7, 8, 9] [7, 8, 9].length).1 :=
  ⟨rfl, (keystream_independent_of_data Endian.little (dove_reset ⟨[], 0, 0⟩)
    [1, 2, 3] [7, 8, 9] rfl).1⟩

/-- C4. Chunking at a block boundary: when the length of `a` is a multiple of 64, a call on
`a` followed by a call on `b` gives the same final engine and the same output bytes as one
call on `a ++ b`. -/
theorem chunking_at_block_boundary (bo : Endian) (s : Engine) (a b : List Nat)
    (h : a.length % 64 = 0) :
    dove_crypt bo s (a ++ b) (a ++ b).length =
      ((dove_crypt bo (dove_crypt bo s a a.length).1 b b.length).1,
        (dove_crypt bo s a a.length).2 ++
          (dove_crypt bo (dove_crypt bo s a a.length).1 b b.length).2) := by
  apply Prod.ext
  · simp only [dove_crypt_engine, List.length_append]
    rw [← after_blocks_add]
    congr 1
    omega
  · apply List.ext_getElem?
    intro j
    simp only []
    rw [List.getElem?_append, length_dove_crypt, getElem?_dove_crypt, getElem?_dove_crypt,
      getElem?_dove_crypt, List.getElem?_append, List.length_append, dove_crypt_engine,
      stream_byte_after]
    by_cases hj : j < a.length
    · rw [if_pos hj, if_pos hj, if_pos hj, if_pos (show j < a.length + b.length by omega)]
    · rw [if_neg hj, if_neg hj]
      have e1 : 64 * ((a.length + 63) / 64) + (j - a.length) = j := by omega
      rw [e1]
      by_cases hj2 : j < a.length + b.length
      · rw [if_pos hj2, if_pos (show j - a.length < b.length by omega)]
      · rw [if_neg hj2, if_neg (show ¬ j - a.length < b.length by omega)]

/-- Witness of C4 with a block of 64 zero bytes followed by three bytes. -/
theorem chunking_at_block_boundary_witness :
    (List.replicate 64 0).length % 64 = 0 ∧
      dove_crypt Endian.little (dove_reset ⟨[], 0, 0⟩) (List.replicate 64 0 ++ [1, 2, 3])
          (List.replicate 64 0 ++ [1, 2, 3]).length =
        ((dove_crypt Endian.little (dove_crypt Endian.little (dove_reset ⟨[], 0, 0⟩)
            (List.replicate 64 0) (List.replicate 64 0).length).1 [1, 2, 3] [1, 2, 3].length).1,
          (dove_crypt Endian.little (dove_reset ⟨[], 0, 0⟩) (List.replicate 64 0)
              (List.replicate 64 0).length).2 ++
            (dove_crypt Endian.little (dove_crypt Endian.little (dove_reset ⟨[], 0, 0⟩)
              (List.replicate 64 0) (List.replicate 64 0).length).1 [1, 2, 3]
              [1, 2, 3].length).2) :=
  ⟨by decide, chunking_at_block_boundary Endian.little (dove_reset ⟨[], 0, 0⟩)
    (List.replicate 64 0) [1, 2, 3] (by decide)⟩

theorem length_zero_pad (d : List Nat) :
    (zero_pad d).length = 64 * ((d.length + 63) / 64) := by
  unfold zero_pad
  rw [List.length_append, List.length_replicate]
  omega

/-- C5. Partial final block: for a buffer whose length `L` is not a multiple of 64, the
call returns `L` bytes, namely the first `L` bytes of the output for the buffer zero-padded
to `64 * ceil(L / 64)` bytes; the final engine (state and counter) is the one reached on the
padded buffer, which is one full block step (`next_block`: counter plus one, ratchet with
the whole keystream block) after the engine reached on the `L / 64` whole blocks. -/
theorem partial_final_block (bo : Endian) (s : Engine) (d : List Nat)
    (h : d.length % 64 ≠ 0) :
    (dove_crypt bo s d d.length).2.length = d.length ∧
      (dove_crypt bo s d d.length).2 =
        (dove_crypt bo s (zero_pad d) (zero_pad d).length).2.take d.length ∧
      (dove_crypt bo s d d.length).1 = (dove_crypt bo s (zero_pad d) (zero_pad d).length).1 ∧
      (dove_crypt bo s d d.length).1 =
        next_block (dove_crypt bo s (d.take (64 * (d.length / 64)))
          (d.take (64 * (d.length / 64))).length).1 := by
  refine ⟨length_dove_crypt bo s d d.length, ?_, ?_, ?_⟩
  · apply List.ext_getElem?
    intro j
    rw [List.getElem?_take, getElem?_dove_crypt, getElem?_dove_crypt, length_zero_pad]
    by_cases hj : j < d.length
    · rw [if_pos hj, if_pos hj, if_pos (show j < 64 * ((d.length + 63) / 64) by omega)]
      unfold zero_pad
      rw [List.getElem?_append_left hj]
    · rw [if_neg hj, if_neg hj, List.getElem?_eq_none (by omega)]
  · rw [dove_crypt_engine, dove_crypt_engine, length_zero_pad]
    congr 1
    omega
  · rw [dove_crypt_engine, dove_crypt_engine, List.length_take]
    have e1 : (d.length + 63) / 64 = d.length / 64 + 1 := by omega
    have e2 : (min (64 * (d.length / 64)) d.length + 63) / 64 = d.length / 64 := by omega
    rw [e1, e2, after_blocks_add]
    rfl

/-- Witness of C5 with a buffer of three bytes. -/
theorem partial_final_block_witness :
    [1, 2, 3].length % 64 ≠ 0 ∧
      (dove_crypt Endian.little (dove_reset ⟨[], 0, 0⟩) [1, 2, 3] [1, 2, 3].length).1 =
        (dove_crypt Endian.little (dove_reset ⟨[], 0, 0⟩) (zero_pad [1, 2, 3])
          (zero_pad [1, 2, 3]).length).1 :=
  ⟨by decide, (partial_final_block Endian.little (dove_reset ⟨[], 0, 0⟩) [1, 2, 3]
    (by decide)).2.2.1⟩

/-- C6. Counter arithmetic: on an engine whose counter halves are 32-bit words, a call of
length `L` leaves 32-bit halves and advances the 64-bit counter value by `ceil(L / 64)`
modulo `2 ^ 64`; a call of one block increments `counter_low` modulo `2 ^ 32` and increments
`counter_high` exactly when `counter_low` was `0xFFFFFFFF`; from the counter `(0, 0)`, a
call of `2 ^ 32` blocks ends with `counter_low = 0` and `counter_high = 1`. -/
theorem counter_arithmetic (bo : Endian) (e : Engine) (d : List Nat)
    (hlo : e.counter_low < 2 ^ 32) (hhi : e.counter_high < 2 ^ 32) :
    (dove_crypt bo e d d.length).1.counter = (e.counter + (d.length + 63) / 64) % 2 ^ 64 ∧
      (dove_crypt bo e d d.length).1.counter_low < 2 ^ 32 ∧
      (dove_crypt bo e d d.length).1.counter_high < 2 ^ 32 ∧
      (0 < d.length → d.length ≤ 64 →
        (dove_crypt bo e d d.length).1.counter_low = (e.counter_low + 1) % 2 ^ 32 ∧
        (dove_crypt bo e d d.length).1.counter_high =
          if e.counter_low = 0xFFFFFFFF then (e.counter_high + 1) % 2 ^ 32
          else e.counter_high) ∧
      (e.counter_low = 0 → e.counter_high = 0 → (d.length + 63) / 64 = 2 ^ 32 →
        (dove_crypt bo e d d.length).1.counter_low = 0 ∧
        (dove_crypt bo e d d.length).1.counter_high = 1) := by
  rw [dove_crypt_engine]
  obtain ⟨h1, h2, h3⟩ := counter_after_blocks ((d.length + 63) / 64) e hlo hhi
  refine ⟨h1, h2, h3, ?_, ?_⟩
  · intro hpos hle
    have e1 : (d.length + 63) / 64 = 1 := by omega
    rw [e1]
    simp only [after_blocks, next_block, advance, u32]
    norm_num at hlo hhi ⊢
    by_cases hc : e.counter_low = 4294967295
    · rw [if_pos hc, if_pos (by omega)]
    · rw [if_neg hc, if_neg (by omega)]
  · intro h0 h0' hn
    simp only [Engine.counter] at h1
    generalize (after_blocks ((d.length + 63) / 64) e).counter_low = lo at h1 h2 h3 ⊢
    generalize (after_blocks ((d.length + 63) / 64) e).counter_high = hi at h1 h2 h3 ⊢
    rw [h0, h0', hn] at h1
    norm_num at h1 h2 h3
    omega

/-- Witness of C6 on the zeroed engine and a buffer of 65 bytes. -/
theorem counter_arithmetic_witness :
    (dove_reset ⟨[], 0, 0⟩).counter_low < 2 ^ 32 ∧
      (dove_reset ⟨[], 0, 0⟩).counter_high < 2 ^ 32 ∧
      (dove_crypt Endian.little (dove_reset ⟨[], 0, 0⟩) (List.replicate 65 0)
          (List.replicate 65 0).length).1.counter =
        ((dove_reset ⟨[], 0, 0⟩).counter + ((List.replicate 65 0).length + 63) / 64) % 2 ^ 64 :=
  ⟨by decide, by decide, (counter_arithmetic Endian.little (dove_reset ⟨[], 0, 0⟩)
    (List.replicate 65 0) (by decide) (by decide)).1⟩

/-! ## `dove_transform` -/

theorem step1_lt (x : Nat) (hx : x < 2 ^ 32) : transform_step1 x < 2 ^ 32 := by
  have h0 : ∀ i, x.testBit i = (decide (i < 32) && x.testBit i) := by
    intro i
    by_cases hi : i < 32
    · simp [hi]
    · rw [testBit_of_lt_word x hx i (by omega)]
      simp
  exact lt_word_of_bits _ _ (step1_bits x _ h0)

theorem dove_transform_lt (x : Nat) : dove_transform x < 2 ^ 32 := by
  unfold dove_transform
  generalize transform_step3 (transform_step2 (transform_step1 x)) = y
  have hz : transform_step4 y < 2 ^ 32 := Nat.mod_lt _ (by norm_num)
  generalize transform_step4 y = z at hz
  unfold transform_step5 u32
  apply Nat.xor_lt_two_pow hz
  apply Nat.or_lt_two_pow
  · rw [Nat.shiftRight_eq_div_pow]
    exact Nat.lt_of_le_of_lt (Nat.div_le_self z _) hz
  · exact Nat.mod_lt _ (by norm_num)

/-- C2, as the code has it.  `dove_transform` maps every word to a 32-bit word, and on
32-bit words its first two statements (`x ^= rotleft(x, 5) ^ rotright(x, 7); x *= K`) are
inverted on both sides by `prefix_inverse`, so they form a bijection; the third statement
`x ^= rotleft(x, 13)` already sends `0` and `0xFFFFFFFF` to the same word. -/
theorem transform_prefix_bijective (x : Nat) (hx : x < 2 ^ 32) :
    dove_transform x < 2 ^ 32 ∧
      transform_step2 (transform_step1 x) < 2 ^ 32 ∧
      prefix_inverse x < 2 ^ 32 ∧
      prefix_inverse (transform_step2 (transform_step1 x)) = x ∧
      transform_step2 (transform_step1 (prefix_inverse x)) = x ∧
      transform_step3 0 = transform_step3 0xFFFFFFFF := by
  have hu : u32 (x * 2237376655) < 2 ^ 32 := Nat.mod_lt _ (by norm_num)
  refine ⟨dove_transform_lt x, Nat.mod_lt _ (by norm_num), ?_, ?_, ?_, by decide⟩
  · unfold prefix_inverse step1_inverse
    exact step1_lt _ (step1_lt _ (step1_lt _ (step1_lt _ (step1_lt _ (step1_lt _
      (step1_lt _ hu))))))
  · unfold prefix_inverse
    rw [step2_left_inverse _ (step1_lt x hx)]
    exact step1_eight x hx
  · unfold prefix_inverse
    rw [step1_eight _ hu]
    exact step2_right_inverse x hx

/-- Witness for the amended C2 at the word `0x12345678`. -/
theorem transform_prefix_bijective_witness :
    0x12345678 < 2 ^ 32 ∧
      prefix_inverse (transform_step2 (transform_step1 0x12345678)) = 0x12345678 :=
  ⟨by decide, (transform_prefix_bijective 0x12345678 (by decide)).2.2.2.1⟩

/-- C2 fails as stated: the distinct 32-bit words `0` and `0x33e9569a` have the same image
under `dove_transform`, namely `0`. -/
theorem dove_transform_collision :
    (0 : Nat) < 2 ^ 32 ∧ 0x33e9569a < 2 ^ 32 ∧ (0 : Nat) ≠ 0x33e9569a ∧
      dove_transform 0 = dove_transform 0x33e9569a := by
  decide

/-! ## Initialisation and reset -/

/-- C7, as the code has it.  `dove_init` checks nothing: with an empty key, whatever the
engine and the nonce, its first key read takes `i % key_length` with `key_length = 0`, and
that fault, not an error value, is the outcome. -/
theorem dove_init_empty_key (e : Engine) (nonce : List Nat) :
    dove_init e [] nonce = Except.error Fault.modByZero ∧
      key_byte [] 0 = Except.error Fault.modByZero := by
  constructor <;> rfl

/-- C7 fails as stated: on the zeroed engine with an empty key and the nonce `0x00 .. 0x0F`
the outcome of `dove_init` is the modulo by zero. -/
theorem empty_key_takes_mod_by_zero :
    dove_init (dove_reset ⟨[], 0, 0⟩) [] (List.range 16) = Except.error Fault.modByZero := by
  rfl

/-- C8. Short keys wrap cyclically: for a non-empty key `k`, `m ≥ 1` and a nonce of 16
bytes, `dove_init` succeeds on `k` and gives the same engine on `k` repeated `m` times; the
initial word `i` is the big-endian packing of the key bytes at `i, i+1, i+2, i+3`, each index
taken modulo the key length. -/
theorem short_key_wraps (e : Engine) (key nonce : List Nat) (m : Nat) (hk : key ≠ [])
    (hm : 1 ≤ m) (hn : nonce.length = 16) :
    dove_init e (List.replicate m key).flatten nonce = dove_init e key nonce ∧
      (∃ e', dove_init e key nonce = Except.ok e') ∧
      ∀ i, key_word key i = Except.ok (pack_be (key.getD (i % key.length) 0)
        (key.getD ((i + 1) % key.length) 0) (key.getD ((i + 2) % key.length) 0)
        (key.getD ((i + 3) % key.length) 0)) := by
  refine ⟨?_, ?_, key_word_ok key hk⟩
  · have hw : key_word (List.replicate m key).flatten = key_word key := by
      funext i
      unfold key_word
      simp only [key_byte_repeat key m hk hm]
    unfold dove_init key_schedule
    rw [hw]
  · unfold dove_init
    rw [key_schedule_ok key nonce hk hn]
    exact ⟨_, rfl⟩

/-- Witness of C8: the key `"AB"` against `"ABABAB"` with the nonce `0x00 .. 0x0F`. -/
theorem short_key_wraps_witness :
    [65, 66] ≠ [] ∧ 1 ≤ 3 ∧ (List.range 16).length = 16 ∧
      dove_init (dove_reset ⟨[], 0, 0⟩) (List.replicate 3 [65, 66]).flatten (List.range 16) =
        dove_init (dove_reset ⟨[], 0, 0⟩) [65, 66] (List.range 16) :=
  ⟨by decide, by decide, by decide,
    (short_key_wraps (dove_reset ⟨[], 0, 0⟩) [65, 66] (List.range 16) 3 (by decide)
      (by decide) (by decide)).1⟩

/-- C9. Initialisation determines the engine: for a key of length at least 1 and a nonce of
16 bytes, `dove_init` succeeds from every prior engine, with the same result; the counter is
`(0, 0)` and the state is the list of 16 words that `key_schedule` computes from the key and
the nonce alone. -/
theorem init_determines_engine (e1 e2 : Engine) (key nonce : List Nat) (hk : key ≠ [])
    (hn : nonce.length = 16) :
    dove_init e1 key nonce = dove_init e2 key nonce ∧
      ∃ st, key_schedule key nonce = Except.ok st ∧ st.length = 16 ∧
        dove_init e1 key nonce =
          Except.ok { state := st, counter_high := 0, counter_low := 0 } := by
  refine ⟨rfl, _, key_schedule_ok key nonce hk hn, ?_, ?_⟩
  · rw [length_diffuse, length_nonce_fold, length_nonce_fold, length_nonce_fold,
      length_nonce_fold, length_key_words]
  · unfold dove_init
    rw [key_schedule_ok key nonce hk hn]
    rfl

/-- Witness of C9: two different prior engines, key `"K"`, nonce `0x00 .. 0x0F`. -/
theorem init_determines_engine_witness :
    [75] ≠ [] ∧ (List.range 16).length = 16 ∧
      dove_init ⟨[], 5, 7⟩ [75] (List.range 16) =
        dove_init (dove_reset ⟨[], 0, 0⟩) [75] (List.range 16) :=
  ⟨by decide, by decide,
    (init_determines_engine ⟨[], 5, 7⟩ (dove_reset ⟨[], 0, 0⟩) [75] (List.range 16)
      (by decide) (by decide)).1⟩

/-- C10. Reset: from every engine, `dove_reset` (a total function) returns the engine whose
16 state words are all zero and whose counter is `(0, 0)`. -/
theorem reset_semantics (e : Engine) :
    (dove_reset e).state.length = 16 ∧ (∀ w ∈ (dove_reset e).state, w = 0) ∧
      (dove_reset e).counter_high = 0 ∧ (dove_reset e).counter_low = 0 ∧
      dove_reset e = { state := List.replicate 16 0, counter_high := 0, counter_low := 0 } := by
  refine ⟨by simp [dove_reset, STATE_SIZE], ?_, rfl, rfl, rfl⟩
  intro w hw
  simp only [dove_reset] at hw
  exact List.eq_of_mem_replicate hw

/-! ## Zero-length calls and the zeroed engine -/

set_option maxRecDepth 100000 in
theorem keystream_block_zero :
    keystream_block { state := List.replicate 16 0, counter_high := 0, counter_low := 0 } =
      List.replicate 16 0 := by
  decide!

set_option maxRecDepth 100000 in
theorem next_block_zero :
    next_block { state := List.replicate 16 0, counter_high := 0, counter_low := 0 } =
      { state := List.replicate 16 0, counter_high := 0, counter_low := 1 } := by
  decide!

theorem getD_replicate_zero (n k : Nat) : (List.replicate n 0).getD k 0 = 0 := by
  rw [List.getD_eq_getElem?_getD, List.getElem?_replicate]
  split <;> rfl

theorem keystream_byte_zero (bo : Endian) (j : Nat) :
    keystream_byte bo (List.replicate 16 0) j = 0 := by
  cases bo <;> simp only [keystream_byte, getD_replicate_zero, Nat.zero_shiftRight, Nat.zero_mod]

theorem add_counter_cancel (ks : List Nat) (c : Nat) : add_counter ks c c = ks := by
  unfold add_counter
  generalize List.range STATE_SIZE = l
  induction l generalizing ks with
  | nil => rfl
  | cons i l ih =>
    rw [List.foldl_cons]
    have hstep : (ks.set i (ks.getD i 0 ^^^ dove_transform (u32 (c + i)))).set i
        ((ks.set i (ks.getD i 0 ^^^ dove_transform (u32 (c + i)))).getD i 0 ^^^
          dove_transform (u32 (c + i))) = ks := by
      apply List.ext_getElem?
      intro j
      rw [List.getElem?_set, List.length_set]
      by_cases hj : i = j
      · subst hj
        rw [if_pos rfl]
        by_cases hl : i < ks.length
        · rw [if_pos hl, List.getD_eq_getElem?_getD, List.getElem?_set, if_pos rfl, if_pos hl,
            List.getD_eq_getElem?_getD, List.getElem?_eq_getElem hl]
          simp only [Option.getD_some]
          rw [Nat.xor_cancel_right]
        · rw [if_neg hl, List.getElem?_eq_none (by omega)]
      · rw [if_neg hj, List.getElem?_set, if_neg hj]
    simp only []
    rw [hstep]
    exact ih ks

/-- C11. A call with `length = 0` is a no-op: the buffer, the 16 state words and both
counter halves are returned unchanged, for every engine and buffer. -/
theorem zero_length_is_noop (bo : Endian) (e : Engine) (data : List Nat) :
    dove_crypt bo e data 0 = (e, data) ∧ (dove_crypt bo e data 0).2 = data ∧
      (dove_crypt bo e data 0).1.state = e.state ∧
      (dove_crypt bo e data 0).1.counter_low = e.counter_low ∧
      (dove_crypt bo e data 0).1.counter_high = e.counter_high :=
  ⟨rfl, rfl, rfl, rfl, rfl⟩

/-- C19. The zeroed engine is a fixed point of the first block: after `dove_reset` the
keystream block is all zero, so a call of length 1 to 64 returns the buffer unchanged and
leaves 16 zero state words with `counter_low = 1` and `counter_high = 0`.  The reasons are
`dove_transform(0) = 0`, `dove_mix(0, 0, 0) = 0`, and that the two counter terms cancel
whenever both counter halves are equal. -/
theorem all_zero_after_reset (bo : Endian) (e : Engine) (d : List Nat) (h1 : 1 ≤ d.length)
    (h2 : d.length ≤ 64) :
    keystream_block (dove_reset e) = List.replicate 16 0 ∧
      dove_crypt bo (dove_reset e) d d.length =
        ({ state := List.replicate 16 0, counter_high := 0, counter_low := 1 }, d) ∧
      dove_transform 0 = 0 ∧ dove_mix 0 0 0 = 0 ∧
      ∀ (ks : List Nat) (c : Nat), add_counter ks c c = ks := by
  refine ⟨keystream_block_zero, ?_, by decide, by decide, add_counter_cancel⟩
  apply Prod.ext
  · rw [dove_crypt_engine]
    have e1 : (d.length + 63) / 64 = 1 := by omega
    rw [e1]
    exact next_block_zero
  · apply List.ext_getElem?
    intro j
    rw [getElem?_dove_crypt]
    by_cases hj : j < d.length
    · rw [if_pos hj, stream_byte_lt bo _ j (by omega)]
      have hk : keystream_block (dove_reset e) = List.replicate 16 0 := keystream_block_zero
      rw [hk, keystream_byte_zero, List.getElem?_eq_getElem hj, Option.map_some',
        Nat.xor_zero]
    · rw [if_neg hj]

/-- Witness of C19 with a buffer of three bytes on a little-endian host. -/
theorem all_zero_after_reset_witness :
    1 ≤ [1, 2, 3].length ∧ [1, 2, 3].length ≤ 64 ∧
      dove_crypt Endian.little (dove_reset ⟨[], 0, 0⟩) [1, 2, 3] [1, 2, 3].length =
        ({ state := List.replicate 16 0, counter_high := 0, counter_low := 1 }, [1, 2, 3]) :=
  ⟨by decide, by decide,
    (all_zero_after_reset Endian.little ⟨[], 0, 0⟩ [1, 2, 3] (by decide) (by decide)).2.1⟩

/-! ## Key bytes and nonce words in the key schedule -/

theorem mapM_congr_mem (f g : Nat → Except Fault Nat) (l : List Nat)
    (h : ∀ i ∈ l, f i = g i) : l.mapM f = l.mapM g := by
  induction l with
  | nil => rfl
  | cons a l ih =>
    rw [List.mapM_cons, List.mapM_cons, h a (List.mem_cons_self a l),
      ih (fun i hi => h i (List.mem_cons_of_mem a hi))]

theorem key_byte_agree (k1 k2 : List Nat) (n : Nat) (h1 : n ≤ k1.length)
    (h2 : n ≤ k2.length) (h : k1.take n = k2.take n) (idx : Nat) (hidx : idx < n) :
    key_byte k1 idx = key_byte k2 idx := by
  have e1 : k1[idx]? = k2[idx]? := by
    have := congrArg (fun l => l[idx]?) h
    simp only [List.getElem?_take, if_pos hidx] at this
    exact this
  unfold key_byte
  rw [if_neg (by omega), if_neg (by omega), Nat.mod_eq_of_lt (by omega),
    Nat.mod_eq_of_lt (by omega), e1]

theorem getElem?_fold_xor (c : Nat → Nat) (t : List Nat) (n k : Nat) :
    ((List.range n).foldl (fun t j => t.set j (t.getD j 0 ^^^ c j)) t)[k]? =
      if k < n then t[k]?.map (fun x => x ^^^ c k) else t[k]? := by
  induction n with
  | zero =>
    rw [if_neg (by omega)]
    rfl
  | succ n ih =>
    rw [List.range_succ, List.foldl_append]
    simp only [List.foldl_cons, List.foldl_nil]
    have hlen : (List.foldl (fun t j => t.set j (t.getD j 0 ^^^ c j)) t
        (List.range n)).length = t.length :=
      foldl_length _ _ (fun w j => by simp) t
    rw [List.getElem?_set, hlen]
    by_cases hk : n = k
    · subst hk
      rw [if_pos rfl, if_pos (show n < n + 1 by omega), List.getD_eq_getElem?_getD, ih,
        if_neg (show ¬ n < n by omega)]
      by_cases hl : n < t.length
      · rw [if_pos hl, List.getElem?_eq_getElem hl]
        rfl
      · rw [if_neg hl, List.getElem?_eq_none (by omega)]
        rfl
    · rw [if_neg hk, ih]
      by_cases h : k < n
      · rw [if_pos h, if_pos (show k < n + 1 by omega)]
      · rw [if_neg h, if_neg (show ¬ k < n + 1 by omega)]

theorem getElem?_nonce_fold (t : List Nat) (nw k : Nat) :
    (nonce_fold t nw)[k]? =
      if k < STATE_SIZE then t[k]?.map (fun x => x ^^^ dove_transform (u32 (nw + k)))
      else t[k]? :=
  getElem?_fold_xor (fun j => dove_transform (u32 (nw + j))) t STATE_SIZE k

theorem nonce_fold_comm (t : List Nat) (a b : Nat) :
    nonce_fold (nonce_fold t a) b = nonce_fold (nonce_fold t b) a := by
  apply List.ext_getElem?
  intro k
  simp only [getElem?_nonce_fold]
  by_cases hk : k < STATE_SIZE
  · simp only [if_pos hk]
    cases t[k]? with
    | none => simp only [Option.map_none']
    | some x =>
      simp only [Option.map_some']
      rw [Nat.xor_assoc, Nat.xor_assoc,
        Nat.xor_comm (dove_transform (u32 (a + k))) (dove_transform (u32 (b + k)))]
  · simp only [if_neg hk]

theorem nonce_fold_twice (t : List Nat) (a : Nat) : nonce_fold (nonce_fold t a) a = t := by
  apply List.ext_getElem?
  intro k
  simp only [getElem?_nonce_fold]
  by_cases hk : k < STATE_SIZE
  · simp only [if_pos hk]
    cases t[k]? with
    | none => simp only [Option.map_none']
    | some x =>
      simp only [Option.map_some']
      rw [Nat.xor_cancel_right]
  · simp only [if_neg hk]

theorem key_schedule_foldl (key nonce : List Nat) (hk : key ≠ []) (hn : nonce.length = 16) :
    key_schedule key nonce =
      Except.ok (diffuse ((nonce_words nonce).foldl nonce_fold (key_words key))) := by
  rw [key_schedule_ok key nonce hk hn]
  unfold nonce_words
  have hr : List.range 4 = [0, 1, 2, 3] := rfl
  rw [hr]
  simp only [List.map_cons, List.map_nil, List.foldl_cons, List.foldl_nil]

/-- C16. Only the first 19 key bytes are used: for a 16-byte nonce and two keys of length at
least 19 (the lengths may differ) that agree on their first 19 bytes, `dove_init` succeeds
with the same engine, hence the same state and the same keystream. -/
theorem only_first_19_key_bytes (e : Engine) (k1 k2 nonce : List Nat) (h1 : 19 ≤ k1.length)
    (h2 : 19 ≤ k2.length) (h : k1.take 19 = k2.take 19) (hn : nonce.length = 16) :
    dove_init e k1 nonce = dove_init e k2 nonce ∧
      ∃ e', dove_init e k1 nonce = Except.ok e' ∧ dove_init e k2 nonce = Except.ok e' := by
  have hw : (List.range STATE_SIZE).mapM (key_word k1) =
      (List.range STATE_SIZE).mapM (key_word k2) := by
    apply mapM_congr_mem
    intro i hi
    rw [List.mem_range] at hi
    simp only [STATE_SIZE] at hi
    unfold key_word
    rw [key_byte_agree k1 k2 19 h1 h2 h i (by omega),
      key_byte_agree k1 k2 19 h1 h2 h (i + 1) (by omega),
      key_byte_agree k1 k2 19 h1 h2 h (i + 2) (by omega),
      key_byte_agree k1 k2 19 h1 h2 h (i + 3) (by omega)]
  have heq : dove_init e k1 nonce = dove_init e k2 nonce := by
    unfold dove_init key_schedule
    rw [hw]
  have hk2 : k2 ≠ [] := by
    intro h0
    rw [h0] at h2
    simp at h2
  have hok : ∃ e', dove_init e k2 nonce = Except.ok e' := by
    unfold dove_init
    rw [key_schedule_ok k2 nonce hk2 hn]
    exact ⟨_, rfl⟩
  obtain ⟨e', he'⟩ := hok
  exact ⟨heq, e', by rw [heq]; exact he', he'⟩

/-- Witness of C16: two keys of 20 and 21 bytes with the same first 19 bytes. -/
theorem only_first_19_key_bytes_witness :
    19 ≤ (List.range 19 ++ [1]).length ∧ 19 ≤ (List.range 19 ++ [2, 3]).length ∧
      (List.range 19 ++ [1]).take 19 = (List.range 19 ++ [2, 3]).take 19 ∧
      (List.range 16).length = 16 ∧
      dove_init (dove_reset ⟨[], 0, 0⟩) (List.range 19 ++ [1]) (List.range 16) =
        dove_init (dove_reset ⟨[], 0, 0⟩) (List.range 19 ++ [2, 3]) (List.range 16) :=
  ⟨by decide, by decide, by decide, by decide,
    (only_first_19_key_bytes (dove_reset ⟨[], 0, 0⟩) (List.range 19 ++ [1])
      (List.range 19 ++ [2, 3]) (List.range 16) (by decide) (by decide) (by decide)
      (by decide)).1⟩

/-- C17. The order of the nonce words is irrelevant: for a key of length at least 1 and two
16-byte nonces whose four big-endian words are a permutation of one another, `dove_init`
gives the same engine, because folding a word in (`temp[j] ^= dove_transform(n + j)`)
commutes with folding another one in. -/
theorem nonce_word_order_irrelevant (e : Engine) (key n1 n2 : List Nat) (hk : key ≠ [])
    (h1 : n1.length = 16) (h2 : n2.length = 16)
    (hp : List.Perm (nonce_words n1) (nonce_words n2)) :
    dove_init e key n1 = dove_init e key n2 ∧
      (∃ e', dove_init e key n1 = Except.ok e') ∧
      ∀ (t : List Nat) (a b : Nat),
        nonce_fold (nonce_fold t a) b = nonce_fold (nonce_fold t b) a := by
  haveI : RightCommutative nonce_fold := ⟨nonce_fold_comm⟩
  refine ⟨?_, ?_, nonce_fold_comm⟩
  · unfold dove_init
    rw [key_schedule_foldl key n1 hk h1, key_schedule_foldl key n2 hk h2,
      List.Perm.foldl_eq hp]
  · unfold dove_init
    rw [key_schedule_foldl key n1 hk h1]
    exact ⟨_, rfl⟩

/-- Witness of C17: the nonce `0x00 .. 0x0F` and the same nonce with its first two words
exchanged. -/
theorem nonce_word_order_irrelevant_witness :
    [75] ≠ [] ∧ (List.range 16).length = 16 ∧
      [4, 5, 6, 7, 0, 1, 2, 3, 8, 9, 10, 11, 12, 13, 14, 15].length = 16 ∧
      dove_init (dove_reset ⟨[], 0, 0⟩) [75] (List.range 16) =
        dove_init (dove_reset ⟨[], 0, 0⟩) [75]
          [4, 5, 6, 7, 0, 1, 2, 3, 8, 9, 10, 11, 12, 13, 14, 15] :=
  ⟨by decide, by decide, by decide,
    (nonce_word_order_irrelevant (dove_reset ⟨[], 0, 0⟩) [75] (List.range 16)
      [4, 5, 6, 7, 0, 1, 2, 3, 8, 9, 10, 11, 12, 13, 14, 15] (by decide) (by decide)
      (by decide) (by decide)).1⟩

/-- C18. Equal nonce words cancel: for a key of length at least 1, every 16-byte nonce with
`word0 = word1` and `word2 = word3` gives the engine whose state is the diffusion of the key
words alone, so any two such nonces give the same engine. -/
theorem equal_nonce_words_cancel (e : Engine) (key n1 n2 : List Nat) (hk : key ≠ [])
    (h1 : n1.length = 16) (h2 : n2.length = 16)
    (ha : nonce_word_value n1 0 = nonce_word_value n1 1)
    (hb : nonce_word_value n1 2 = nonce_word_value n1 3)
    (hc : nonce_word_value n2 0 = nonce_word_value n2 1)
    (hd : nonce_word_value n2 2 = nonce_word_value n2 3) :
    dove_init e key n1 = dove_init e key n2 ∧
      dove_init e key n1 = Except.ok
        { state := diffuse (key_words key), counter_high := 0, counter_low := 0 } := by
  have key_only : ∀ n : List Nat, n.length = 16 →
      nonce_word_value n 0 = nonce_word_value n 1 →
      nonce_word_value n 2 = nonce_word_value n 3 →
      dove_init e key n = Except.ok
        { state := diffuse (key_words key), counter_high := 0, counter_low := 0 } := by
    intro n hn h01 h23
    unfold dove_init
    rw [key_schedule_ok key n hk hn, ← h01, ← h23, nonce_fold_twice, nonce_fold_twice]
    rfl
  exact ⟨by rw [key_only n1 h1 ha hb, key_only n2 h2 hc hd], key_only n1 h1 ha hb⟩

/-- Witness of C18: the all-zero nonce and the four-byte pattern `1, 2, 3, 4` repeated. -/
theorem equal_nonce_words_cancel_witness :
    [75] ≠ [] ∧ (List.replicate 16 0).length = 16 ∧
      [1, 2, 3, 4, 1, 2, 3, 4, 1, 2, 3, 4, 1, 2, 3, 4].length = 16 ∧
      dove_init (dove_reset ⟨[], 0, 0⟩) [75] (List.replicate 16 0) =
        dove_init (dove_reset ⟨[], 0, 0⟩) [75]
          [1, 2, 3, 4, 1, 2, 3, 4, 1, 2, 3, 4, 1, 2, 3, 4] :=
  ⟨by decide, by decide, by decide,
    (equal_nonce_words_cancel (dove_reset ⟨[], 0, 0⟩) [75] (List.replicate 16 0)
      [1, 2, 3, 4, 1, 2, 3, 4, 1, 2, 3, 4, 1, 2, 3, 4] (by decide) (by decide) (by decide)
      (by decide) (by decide) (by decide) (by decide)).1⟩

/-! ## The diagonal pass and the formula of Transform -/

/-- C20. The diagonal pass visits every word exactly once: the indices `(i * 5) % 16` for
`i = 0 .. 15` are a permutation of `0 .. 15`, each index below 16 occurring once; the pass is
the fold of the Transform-then-Mix update over these indices, it runs once in each of the 20
rounds, and the neighbour indices `(idx+3) % 16`, `(idx+9) % 16`, `(idx+14) % 16` differ from
`idx`. -/
theorem diagonal_pass_visits_each_word (w : List Nat) (idx : Nat) (h : idx < STATE_SIZE) :
    List.Perm diagonal_indices (List.range STATE_SIZE) ∧
      diagonal_indices.count idx = 1 ∧
      diagonal_pass w = diagonal_indices.foldl (fun w idx => mix_word w idx 3 9 14) w ∧
      ROUNDS = 20 ∧
      crypt_rounds w = (List.range ROUNDS).foldl (fun ks _ => diagonal_pass (column_pass ks)) w ∧
      (idx + 3) % STATE_SIZE ≠ idx ∧ (idx + 9) % STATE_SIZE ≠ idx ∧
      (idx + 14) % STATE_SIZE ≠ idx := by
  simp only [STATE_SIZE] at h
  refine ⟨by decide, ?_, ?_, rfl, rfl, ?_, ?_, ?_⟩
  · interval_cases idx <;> decide
  · unfold diagonal_pass diagonal_indices
    rw [List.foldl_map]
  · simp only [STATE_SIZE]
    omega
  · simp only [STATE_SIZE]
    omega
  · simp only [STATE_SIZE]
    omega

/-- Witness of C20 at the index 5 and the zero state. -/
theorem diagonal_pass_visits_each_word_witness :
    5 < STATE_SIZE ∧ diagonal_indices.count 5 = 1 :=
  ⟨by decide, (diagonal_pass_visits_each_word (List.replicate 16 0) 5 (by decide)).2.1⟩

theorem rotleft_eq_spec (x s : Nat) (hx : x < 2 ^ 32) (hs : s < 32) :
    rotleft x s = spec_rotate_left x s := by
  unfold rotleft spec_rotate_left u32 WORD_SIZE
  simp only [BitVec.rotateLeft, BitVec.rotateLeftAux, BitVec.toNat_or, BitVec.toNat_shiftLeft,
    BitVec.toNat_ushiftRight, BitVec.toNat_ofNat]
  rw [Nat.mod_eq_of_lt hs, Nat.mod_eq_of_lt hx]

theorem rotright_eq_spec (x s : Nat) (hx : x < 2 ^ 32) (hs : s < 32) :
    rotright x s = spec_rotate_right x s := by
  unfold rotright spec_rotate_right u32 WORD_SIZE
  simp only [BitVec.rotateRight, BitVec.rotateRightAux, BitVec.toNat_or,
    BitVec.toNat_shiftLeft, BitVec.toNat_ushiftRight, BitVec.toNat_ofNat]
  rw [Nat.mod_eq_of_lt hs, Nat.mod_eq_of_lt hx]

theorem rotleft_lt (x s : Nat) (hx : x < 2 ^ 32) : rotleft x s < 2 ^ 32 := by
  unfold rotleft u32
  apply Nat.or_lt_two_pow (Nat.mod_lt _ (by norm_num))
  rw [Nat.shiftRight_eq_div_pow]
  exact Nat.lt_of_le_of_lt (Nat.div_le_self x _) hx

theorem rotright_lt (x s : Nat) (hx : x < 2 ^ 32) : rotright x s < 2 ^ 32 := by
  unfold rotright u32
  refine Nat.or_lt_two_pow ?_ (Nat.mod_lt _ (by norm_num))
  rw [Nat.shiftRight_eq_div_pow]
  exact Nat.lt_of_le_of_lt (Nat.div_le_self x _) hx

theorem step5_eq_rotright (x : Nat) : transform_step5 x = x ^^^ rotright x 17 := rfl

theorem dove_transform_eq_spec (x : Nat) (hx : x < 2 ^ 32) :
    dove_transform x = spec_transform x := by
  have h1 : transform_step1 x = x ^^^ (spec_rotate_left x 5 ^^^ spec_rotate_right x 7) := by
    unfold transform_step1
    rw [rotleft_eq_spec x 5 hx (by omega), rotright_eq_spec x 7 hx (by omega)]
  have h2 : ∀ a, transform_step2 a = (a * 0x6170766F) % 2 ^ 32 := fun a => rfl
  have hb : ∀ a, transform_step2 a < 2 ^ 32 := fun a => Nat.mod_lt _ (by norm_num)
  have h3 : ∀ b, b < 2 ^ 32 → transform_step3 b = b ^^^ spec_rotate_left b 13 := by
    intro b hb
    unfold transform_step3
    rw [rotleft_eq_spec b 13 hb (by omega)]
  have h4 : ∀ c, c < 2 ^ 32 → transform_step4 c = (c + spec_rotate_right c 11) % 2 ^ 32 := by
    intro c hc
    unfold transform_step4 u32
    rw [rotright_eq_spec c 11 hc (by omega)]
  have hd : ∀ c, transform_step4 c < 2 ^ 32 := fun c => Nat.mod_lt _ (by norm_num)
  have h5 : ∀ d, d < 2 ^ 32 → transform_step5 d = d ^^^ spec_rotate_right d 17 := by
    intro d hd
    rw [step5_eq_rotright, rotright_eq_spec d 17 hd (by omega)]
  have hc : ∀ b, b < 2 ^ 32 → transform_step3 b < 2 ^ 32 := by
    intro b hb
    unfold transform_step3
    exact Nat.xor_lt_two_pow hb (rotleft_lt b 13 hb)
  unfold dove_transform spec_transform
  simp only []
  rw [h5 _ (hd _), h4 _ (hc _ (hb _)), h3 _ (hb _), h2, h1]

/-- C15. On 32-bit words `dove_transform` is the formula of the specification
(`spec_transform`, with `K = 0x6170766F` and arithmetic modulo `2 ^ 32`); its last statement
`x ^= (x >> 17) | (x << 15)` is `x ^= rotright(x, 17)`; and for shifts 1 to 31 `rotleft` and
`rotright` are circular rotations: they agree with the library rotations, and bit `i` of the
result is bit `i - s` (respectively `i + s`) of the argument, positions taken modulo 32. -/
theorem transform_matches_spec (x s : Nat) (hx : x < 2 ^ 32) (hs1 : 1 ≤ s) (hs2 : s ≤ 31) :
    dove_transform x = spec_transform x ∧
      transform_step5 x = x ^^^ rotright x 17 ∧
      rotleft x s = spec_rotate_left x s ∧ rotright x s = spec_rotate_right x s ∧
      (∀ i, (rotleft x s).testBit i = (decide (i < 32) && x.testBit ((i + (32 - s)) % 32))) ∧
      ∀ i, (rotright x s).testBit i = (decide (i < 32) && x.testBit ((i + s) % 32)) :=
  ⟨dove_transform_eq_spec x hx, rfl, rotleft_eq_spec x s hx (by omega),
    rotright_eq_spec x s hx (by omega), testBit_rotleft x s hx (by omega) (by omega),
    testBit_rotright x s hx (by omega) (by omega)⟩

/-- Witness of C15 at the word `0x12345678` and the shift 5. -/
theorem transform_matches_spec_witness :
    0x12345678 < 2 ^ 32 ∧ 1 ≤ 5 ∧ 5 ≤ 31 ∧
      dove_transform 0x12345678 = spec_transform 0x12345678 :=
  ⟨by decide, by decide, by decide,
    (transform_matches_spec 0x12345678 5 (by decide) (by decide) (by decide)).1⟩

/-! ## The concrete scenario: ratchet and mismatched chunking -/

set_option maxRecDepth 100000 in
theorem key_schedule_test_state :
    diffuse (nonce_fold (nonce_fold (nonce_fold (nonce_fold (key_words test_key)
      (nonce_word_value test_nonce 0)) (nonce_word_value test_nonce 1))
      (nonce_word_value test_nonce 2)) (nonce_word_value test_nonce 3)) =
      test_engine.state := by
  decide!

theorem dove_init_test_engine (e : Engine) :
    dove_init e test_key test_nonce = Except.ok test_engine := by
  unfold dove_init
  rw [key_schedule_ok test_key test_nonce (by decide) (by decide), key_schedule_test_state]
  rfl

set_option maxRecDepth 100000 in
/-- C12. Mismatched chunking desynchronises: with the key `TESTKEY1` and the nonce
`0x00 .. 0x0F`, the 64 zero bytes encrypted by one call and then processed from the same
initial engine by two calls of 32 bytes do not come back (one call of 64 bytes does bring
them back); the two calls consume two blocks (`counter_low = 2`) where the one call
consumed one. -/
theorem desync_on_mismatched_chunking (bo : Endian) :
    ∃ e, dove_init (dove_reset ⟨[], 0, 0⟩) test_key test_nonce = Except.ok e ∧
      (crypt_calls bo e [(dove_crypt bo e zero_block 64).2.take 32,
        (dove_crypt bo e zero_block 64).2.drop 32]).2.flatten ≠ zero_block ∧
      (crypt_calls bo e [(dove_crypt bo e zero_block 64).2]).2.flatten = zero_block ∧
      (crypt_calls bo e [(dove_crypt bo e zero_block 64).2.take 32,
        (dove_crypt bo e zero_block 64).2.drop 32]).1.counter_low = 2 ∧
      (dove_crypt bo e zero_block 64).1.counter_low = 1 := by
  refine ⟨test_engine, dove_init_test_engine _, ?_⟩
  cases bo <;> decide!

set_option maxRecDepth 100000 in
/-- C13. The concrete ratchet scenario: with the key `TESTKEY1` and the nonce `0x00 .. 0x0F`,
`dove_init` followed by `dove_crypt` on 64 zero bytes gives a ciphertext `C1` (on a
little-endian host the 64 bytes listed), a second `dove_crypt` on 64 further zero bytes gives
`C2` different from `C1`, and the state after the first block differs from the state right
after `dove_init`. -/
theorem concrete_ratchet_scenario (bo : Endian) :
    ∃ e, dove_init (dove_reset ⟨[], 0, 0⟩) test_key test_nonce = Except.ok e ∧
      (dove_crypt bo (dove_crypt bo e zero_block 64).1 zero_block 64).2 ≠
        (dove_crypt bo e zero_block 64).2 ∧
      (dove_crypt bo e zero_block 64).1.state ≠ e.state ∧
      (dove_crypt Endian.little e zero_block 64).2 =
        [52, 77, 150, 51, 100, 21, 255, 186, 179, 226, 164, 175, 53, 245, 71, 154, 76, 0, 72,
          177, 3, 22, 5, 222, 118, 167, 149, 209, 53, 172, 233, 239, 120, 44, 245, 60, 145, 124,
          114, 31, 109, 49, 154, 253, 217, 3, 163, 198, 53, 76, 36, 126, 240, 197, 98, 8, 140,
          100, 127, 218, 127, 74, 48, 90] := by
  refine ⟨test_engine, dove_init_test_engine _, ?_⟩
  cases bo <;> decide!

/-! ## The checked code agrees with the code -/

theorem foldlM_ok {α β : Type} (fM : β → α → Except Violation β) (f : β → α → β)
    (l : List α) (h : ∀ w, ∀ i ∈ l, fM w i = Except.ok (f w i)) (w : β) :
    l.foldlM fM w = Except.ok (l.foldl f w) := by
  induction l generalizing w with
  | nil => rfl
  | cons a l ih =>
    rw [List.foldlM_cons, h w a (List.mem_cons_self a l), List.foldl_cons]
    exact ih (fun w i hi => h w i (List.mem_cons_of_mem a hi)) (f w a)

theorem ok_bind {α β : Type} (a : α) (f : α → Except Violation β) :
    (Except.ok a >>= f) = f a := rfl

theorem checked_rotleft_ok (value shift : Nat) (h1 : 1 ≤ shift) (h2 : shift ≤ 31) :
    checked_rotleft value shift = Except.ok (rotleft value shift) := by
  unfold checked_rotleft
  rw [if_pos ⟨h1, h2⟩]

theorem checked_rotright_ok (value shift : Nat) (h1 : 1 ≤ shift) (h2 : shift ≤ 31) :
    checked_rotright value shift = Except.ok (rotright value shift) := by
  unfold checked_rotright
  rw [if_pos ⟨h1, h2⟩]

theorem checked_mod_ok (a divisor : Nat) (h : divisor ≠ 0) :
    checked_mod a divisor = Except.ok (a % divisor) := by
  unfold checked_mod
  rw [if_neg h]

theorem checked_word_read_ok (w : List Nat) (idx : Nat) (h : idx < STATE_SIZE) :
    checked_word_read w idx = Except.ok (w.getD idx 0) := by
  unfold checked_word_read
  rw [if_pos h]

theorem checked_word_write_ok (w : List Nat) (idx v : Nat) (h : idx < STATE_SIZE) :
    checked_word_write w idx v = Except.ok (w.set idx v) := by
  unfold checked_word_write
  rw [if_pos h]

theorem checked_dove_transform_ok (x : Nat) :
    checked_dove_transform x = Except.ok (dove_transform x) := by
  unfold checked_dove_transform
  simp only [checked_rotleft_ok _ 5 (by decide) (by decide),
    checked_rotright_ok _ 7 (by decide) (by decide),
    checked_rotleft_ok _ 13 (by decide) (by decide),
    checked_rotright_ok _ 11 (by decide) (by decide)]
  rfl

theorem checked_dove_mix_ok (a b c : Nat) :
    checked_dove_mix a b c = Except.ok (dove_mix a b c) := by
  unfold checked_dove_mix
  simp only [checked_rotleft_ok _ 7 (by decide) (by decide),
    checked_rotright_ok _ 13 (by decide) (by decide),
    checked_rotleft_ok _ 9 (by decide) (by decide),
    checked_rotright_ok _ 11 (by decide) (by decide),
    checked_rotleft_ok _ 15 (by decide) (by decide),
    checked_rotright_ok _ 5 (by decide) (by decide),
    checked_rotleft_ok _ 13 (by decide) (by decide)]
  rfl

theorem checked_mix_word_ok (w : List Nat) (i o1 o2 o3 : Nat) (hi : i < STATE_SIZE) :
    checked_mix_word w i o1 o2 o3 = Except.ok (mix_word w i o1 o2 o3) := by
  have hne : STATE_SIZE ≠ 0 := by decide
  have hpos : 0 < STATE_SIZE := by decide
  unfold checked_mix_word
  simp only [checked_word_read_ok _ i hi, checked_dove_transform_ok,
    checked_word_write_ok _ i _ hi, checked_mod_ok _ STATE_SIZE hne,
    checked_word_read_ok _ _ (Nat.mod_lt _ hpos), checked_dove_mix_ok, ok_bind]
  rfl

theorem foldlM_ok_inv {α β : Type} (P : β → Prop) (fM : β → α → Except Violation β)
    (f : β → α → β) (l : List α)
    (h : ∀ w, P w → ∀ i ∈ l, fM w i = Except.ok (f w i) ∧ P (f w i)) (w : β) (hw : P w) :
    l.foldlM fM w = Except.ok (l.foldl f w) := by
  induction l generalizing w with
  | nil => rfl
  | cons a l ih =>
    obtain ⟨h1, h2⟩ := h w hw a (List.mem_cons_self a l)
    rw [List.foldlM_cons, h1, List.foldl_cons]
    exact ih (fun w hw i hi => h w hw i (List.mem_cons_of_mem a hi)) (f w a) h2

theorem mapM_ok_mem (fM : Nat → Except Violation Nat) (g : Nat → Nat) (l : List Nat)
    (h : ∀ i ∈ l, fM i = Except.ok (g i)) : l.mapM fM = Except.ok (l.map g) := by
  induction l with
  | nil => rfl
  | cons a l ih =>
    rw [List.mapM_cons, h a (List.mem_cons_self a l),
      ih (fun i hi => h i (List.mem_cons_of_mem a hi))]
    rfl

theorem checked_column_pass_ok (w : List Nat) :
    checked_column_pass w = Except.ok (column_pass w) := by
  unfold checked_column_pass column_pass
  apply foldlM_ok
  intro w i hi
  exact checked_mix_word_ok w i 1 7 13 (List.mem_range.mp hi)

theorem checked_diagonal_pass_ok (w : List Nat) :
    checked_diagonal_pass w = Except.ok (diagonal_pass w) := by
  unfold checked_diagonal_pass diagonal_pass
  apply foldlM_ok
  intro w i _
  rw [checked_mod_ok _ STATE_SIZE (by decide), ok_bind]
  exact checked_mix_word_ok w _ 3 9 14 (Nat.mod_lt _ (by decide))

theorem checked_diffuse_ok (w : List Nat) : checked_diffuse w = Except.ok (diffuse w) := by
  unfold checked_diffuse diffuse
  apply foldlM_ok
  intro w _ _
  exact checked_column_pass_ok w

theorem checked_nonce_fold_ok (t : List Nat) (nw : Nat) :
    checked_nonce_fold t nw = Except.ok (nonce_fold t nw) := by
  unfold checked_nonce_fold nonce_fold
  apply foldlM_ok
  intro w j hj
  have hj' : j < STATE_SIZE := List.mem_range.mp hj
  simp only [checked_word_read_ok _ j hj', checked_dove_transform_ok,
    checked_word_write_ok _ j _ hj', ok_bind]

theorem checked_key_byte_ok (key : List Nat) (hk : 1 ≤ key.length) (idx : Nat) :
    checked_key_byte key idx = Except.ok (key.getD (idx % key.length) 0) := by
  unfold checked_key_byte checked_key_read
  rw [checked_mod_ok _ _ (by omega), ok_bind, if_pos (Nat.mod_lt _ (by omega))]

theorem checked_key_word_ok (key : List Nat) (hk : 1 ≤ key.length) (i : Nat) :
    checked_key_word key i = Except.ok (pack_be (key.getD (i % key.length) 0)
      (key.getD ((i + 1) % key.length) 0) (key.getD ((i + 2) % key.length) 0)
      (key.getD ((i + 3) % key.length) 0)) := by
  unfold checked_key_word
  simp only [checked_key_byte_ok key hk, ok_bind]
  rfl

theorem checked_nonce_read_ok (nonce : List Nat) (hn : nonce.length = 16) (idx : Nat)
    (h : idx ≤ 15) : checked_nonce_read nonce idx = Except.ok (nonce.getD idx 0) := by
  unfold checked_nonce_read
  rw [if_pos ⟨h, by omega⟩]

theorem checked_nonce_word_ok (nonce : List Nat) (hn : nonce.length = 16) (i : Nat)
    (hi : i < 4) : checked_nonce_word nonce i = Except.ok (nonce_word_value nonce i) := by
  unfold checked_nonce_word
  simp only [checked_nonce_read_ok nonce hn (i * 4) (by omega),
    checked_nonce_read_ok nonce hn (i * 4 + 1) (by omega),
    checked_nonce_read_ok nonce hn (i * 4 + 2) (by omega),
    checked_nonce_read_ok nonce hn (i * 4 + 3) (by omega), ok_bind]
  rfl

theorem getElem?_fold_set (g : Nat → Nat) (t : List Nat) (n k : Nat) (hn : n ≤ t.length) :
    ((List.range n).foldl (fun t i => t.set i (g i)) t)[k]? =
      if k < n then some (g k) else t[k]? := by
  induction n with
  | zero =>
    rw [if_neg (by omega)]
    rfl
  | succ n ih =>
    rw [List.range_succ, List.foldl_append]
    simp only [List.foldl_cons, List.foldl_nil]
    have hlen : (List.foldl (fun t i => t.set i (g i)) t (List.range n)).length = t.length :=
      foldl_length _ _ (fun w j => by simp) t
    rw [List.getElem?_set, hlen]
    by_cases hk : n = k
    · subst hk
      rw [if_pos rfl, if_pos (show n < t.length by omega), if_pos (show n < n + 1 by omega)]
    · rw [if_neg hk, ih (by omega)]
      by_cases h : k < n
      · rw [if_pos h, if_pos (show k < n + 1 by omega)]
      · rw [if_neg h, if_neg (show ¬ k < n + 1 by omega)]

theorem fold_set_eq_key_words (key : List Nat) :
    (List.range STATE_SIZE).foldl
      (fun t i => t.set i (pack_be (key.getD (i % key.length) 0)
        (key.getD ((i + 1) % key.length) 0) (key.getD ((i + 2) % key.length) 0)
        (key.getD ((i + 3) % key.length) 0))) (List.replicate STATE_SIZE 0) =
      key_words key := by
  apply List.ext_getElem?
  intro k
  rw [getElem?_fold_set _ _ _ _ (by rw [List.length_replicate])]
  unfold key_words
  rw [List.getElem?_map]
  by_cases hk : k < STATE_SIZE
  · rw [if_pos hk, List.getElem?_range hk]
    rfl
  · rw [if_neg hk, List.getElem?_eq_none (by rw [List.length_replicate]; omega),
      List.getElem?_eq_none (by rw [List.length_range]; omega)]
    rfl

theorem checked_key_fill_ok (key : List Nat) (hk : 1 ≤ key.length) :
    (List.range STATE_SIZE).foldlM
      (fun t i => do
        let v ← checked_key_word key i
        checked_word_write t i v) (List.replicate STATE_SIZE 0) =
      Except.ok (key_words key) := by
  rw [← fold_set_eq_key_words]
  apply foldlM_ok
  intro t i hi
  rw [checked_key_word_ok key hk i, ok_bind,
    checked_word_write_ok _ i _ (List.mem_range.mp hi)]

theorem checked_nonce_loop_ok (nonce : List Nat) (hn : nonce.length = 16) (t : List Nat) :
    [0, 1, 2, 3].foldlM
      (fun t i => do
        let nw ← checked_nonce_word nonce i
        checked_nonce_fold t nw) t =
      Except.ok (nonce_fold (nonce_fold (nonce_fold (nonce_fold t (nonce_word_value nonce 0))
        (nonce_word_value nonce 1)) (nonce_word_value nonce 2)) (nonce_word_value nonce 3)) := by
  rw [List.foldlM_cons, checked_nonce_word_ok nonce hn 0 (by omega), ok_bind,
    checked_nonce_fold_ok, ok_bind,
    List.foldlM_cons, checked_nonce_word_ok nonce hn 1 (by omega), ok_bind,
    checked_nonce_fold_ok, ok_bind,
    List.foldlM_cons, checked_nonce_word_ok nonce hn 2 (by omega), ok_bind,
    checked_nonce_fold_ok, ok_bind,
    List.foldlM_cons, checked_nonce_word_ok nonce hn 3 (by omega), ok_bind,
    checked_nonce_fold_ok, ok_bind, List.foldlM_nil]
  rfl

theorem checked_key_schedule_ok (key nonce : List Nat) (hk : 1 ≤ key.length)
    (hn : nonce.length = 16) :
    checked_key_schedule key nonce = Except.ok (diffuse (nonce_fold (nonce_fold (nonce_fold
      (nonce_fold (key_words key) (nonce_word_value nonce 0)) (nonce_word_value nonce 1))
      (nonce_word_value nonce 2)) (nonce_word_value nonce 3))) := by
  have hr : List.range 4 = [0, 1, 2, 3] := rfl
  unfold checked_key_schedule
  rw [checked_key_fill_ok key hk, ok_bind, hr, checked_nonce_loop_ok nonce hn, ok_bind,
    checked_diffuse_ok]

theorem checked_dove_init_ok (e : Engine) (key nonce : List Nat) (hk : 1 ≤ key.length)
    (hn : nonce.length = 16) :
    ∃ e', checked_dove_init e key nonce = Except.ok e' ∧
      dove_init e key nonce = Except.ok e' := by
  have hk' : key ≠ [] := by
    intro h0
    rw [h0] at hk
    simp at hk
  refine ⟨Engine.mk (diffuse (nonce_fold (nonce_fold (nonce_fold
    (nonce_fold (key_words key) (nonce_word_value nonce 0)) (nonce_word_value nonce 1))
    (nonce_word_value nonce 2)) (nonce_word_value nonce 3))) 0 0, ?_, ?_⟩
  · unfold checked_dove_init
    rw [checked_key_schedule_ok key nonce hk hn, ok_bind]
    rfl
  · unfold dove_init
    rw [key_schedule_ok key nonce hk' hn]
    rfl

theorem checked_add_counter_ok (ks : List Nat) (lo hi : Nat) :
    checked_add_counter ks lo hi = Except.ok (add_counter ks lo hi) := by
  unfold checked_add_counter add_counter
  apply foldlM_ok
  intro w i hi'
  have hi2 : i < STATE_SIZE := List.mem_range.mp hi'
  simp only [checked_word_read_ok _ i hi2, checked_dove_transform_ok,
    checked_word_write_ok _ i _ hi2, ok_bind]

theorem checked_crypt_rounds_ok (ks : List Nat) :
    checked_crypt_rounds ks = Except.ok (crypt_rounds ks) := by
  unfold checked_crypt_rounds crypt_rounds
  apply foldlM_ok
  intro w _ _
  rw [checked_column_pass_ok, ok_bind, checked_diagonal_pass_ok]

theorem checked_keystream_block_ok (e : Engine) :
    checked_keystream_block e = Except.ok (keystream_block e) := by
  unfold checked_keystream_block keystream_block
  rw [checked_add_counter_ok, ok_bind, checked_crypt_rounds_ok]

theorem checked_ratchet_ok (state ks : List Nat) :
    checked_ratchet state ks = Except.ok (ratchet state ks) := by
  have hne : STATE_SIZE ≠ 0 := by decide
  have hpos : 0 < STATE_SIZE := by decide
  unfold checked_ratchet ratchet
  apply foldlM_ok
  intro w i hi
  have hi' : i < STATE_SIZE := List.mem_range.mp hi
  simp only [checked_word_read_ok _ i hi', checked_dove_transform_ok,
    checked_word_write_ok _ i _ hi', checked_mod_ok _ STATE_SIZE hne,
    checked_word_read_ok _ _ (Nat.mod_lt _ hpos), checked_dove_mix_ok, ok_bind]

theorem checked_advance_ok (e : Engine) (ks : List Nat) :
    checked_advance e ks = Except.ok (advance e ks) := by
  unfold checked_advance advance
  simp only [checked_ratchet_ok, ok_bind]
  rfl

theorem checked_xor_block_ok (bo : Endian) (ks data : List Nat)
    (length processed block_size : Nat) (h1 : processed + block_size ≤ length)
    (h2 : block_size ≤ BLOCK_SIZE) (hd : length ≤ data.length) :
    checked_xor_block bo ks data length processed block_size =
      Except.ok (xor_block bo ks data processed block_size) := by
  unfold checked_xor_block xor_block
  apply foldlM_ok_inv (fun d => d.length = data.length)
  · intro d hdl i hi
    have hi' : i < block_size := List.mem_range.mp hi
    have hc : processed + i < length ∧ processed + i < d.length := by omega
    unfold checked_data_read checked_data_write checked_keystream_byte
    rw [if_pos hc, ok_bind, if_pos (show i < BLOCK_SIZE by omega), ok_bind, if_pos hc]
    exact ⟨rfl, by rw [List.length_set, hdl]⟩
  · rfl

theorem checked_crypt_loop_ok (bo : Endian) (length : Nat) :
    ∀ (fuel : Nat) (e : Engine) (data : List Nat) (processed : Nat),
      length ≤ data.length →
      checked_crypt_loop bo fuel e data length processed =
        Except.ok (crypt_loop bo fuel e data length processed) := by
  intro fuel
  induction fuel with
  | zero => intro e data processed _; rfl
  | succ fuel ih =>
    intro e data processed hd
    unfold checked_crypt_loop crypt_loop
    by_cases hp : processed < length
    · rw [if_pos hp, if_pos hp, checked_keystream_block_ok, ok_bind]
      simp only []
      have hbs : processed + (if length - processed < BLOCK_SIZE then length - processed
          else BLOCK_SIZE) ≤ length ∧
          (if length - processed < BLOCK_SIZE then length - processed else BLOCK_SIZE) ≤
            BLOCK_SIZE := by
        simp only [BLOCK_SIZE]
        split <;> omega
      rw [checked_xor_block_ok bo _ data length processed _ hbs.1 hbs.2 hd, ok_bind,
        checked_advance_ok, ok_bind]
      exact ih _ _ _ (by rw [length_xor_block]; exact hd)
    · rw [if_neg hp, if_neg hp]

theorem checked_dove_crypt_ok (bo : Endian) (e : Engine) (data : List Nat) (length : Nat)
    (hd : length ≤ data.length) :
    checked_dove_crypt bo e data length = Except.ok (dove_crypt bo e data length) :=
  checked_crypt_loop_ok bo length length e data 0 hd

theorem checked_ops_in_range :
    (∀ a d r, checked_mod a d = Except.ok r → d ≠ 0) ∧
      (∀ key idx r, checked_key_read key idx = Except.ok r → idx < key.length) ∧
      (∀ nonce idx r, checked_nonce_read nonce idx = Except.ok r → idx ≤ 15) ∧
      (∀ w idx r, checked_word_read w idx = Except.ok r → idx < 16) ∧
      (∀ w idx v r, checked_word_write w idx v = Except.ok r → idx < 16) ∧
      (∀ bo ks i r, checked_keystream_byte bo ks i = Except.ok r → i < 64) ∧
      (∀ data length idx r, checked_data_read data length idx = Except.ok r →
        idx < length ∧ idx < data.length) ∧
      (∀ data length idx v r, checked_data_write data length idx v = Except.ok r →
        idx < length ∧ idx < data.length) ∧
      (∀ v s r, checked_rotleft v s = Except.ok r →
        1 ≤ s ∧ s ≤ 31 ∧ s < 32 ∧ 32 - s < 32) ∧
      ∀ v s r, checked_rotright v s = Except.ok r →
        1 ≤ s ∧ s ≤ 31 ∧ s < 32 ∧ 32 - s < 32 := by
  refine ⟨?_, ?_, ?_, ?_, ?_, ?_, ?_, ?_, ?_, ?_⟩
  · intro a d r h
    unfold checked_mod at h
    split at h
    · cases h
    · assumption
  · intro key idx r h
    unfold checked_key_read at h
    split at h
    · assumption
    · cases h
  · intro nonce idx r h
    unfold checked_nonce_read at h
    split at h
    · omega
    · cases h
  · intro w idx r h
    unfold checked_word_read STATE_SIZE at h
    split at h
    · assumption
    · cases h
  · intro w idx v r h
    unfold checked_word_write STATE_SIZE at h
    split at h
    · assumption
    · cases h
  · intro bo ks i r h
    unfold checked_keystream_byte BLOCK_SIZE at h
    split at h
    · assumption
    · cases h
  · intro data length idx r h
    unfold checked_data_read at h
    split at h
    · assumption
    · cases h
  · intro data length idx v r h
    unfold checked_data_write at h
    split at h
    · assumption
    · cases h
  · intro v s r h
    unfold checked_rotleft at h
    split at h
    · omega
    · cases h
  · intro v s r h
    unfold checked_rotright at h
    split at h
    · omega
    · cases h

/-- C14. Safety under the preconditions.  The checked code stops at the first `%` by zero,
key index not below the key length, nonce index above 15, state or keystream word index not
below 16, keystream byte index not below 64, data index not below `length`, or rotation shift
outside 1 .. 31 (`checked_ops_in_range`).  For a key of length at least 1, a nonce of 16
bytes and a buffer of at least `length` bytes, checked `dove_init` and checked `dove_crypt`
never stop: they return what `dove_init` and `dove_crypt` return, from every engine and for
both byte orders; and `dove_crypt` leaves the bytes from index `length` on as they were. -/
theorem safety_under_preconditions (bo : Endian) (e : Engine) (key nonce data : List Nat)
    (length : Nat) (hk : 1 ≤ key.length) (hn : nonce.length = 16)
    (hd : length ≤ data.length) :
    (∃ e', checked_dove_init e key nonce = Except.ok e' ∧
        dove_init e key nonce = Except.ok e') ∧
      checked_dove_crypt bo e data length = Except.ok (dove_crypt bo e data length) ∧
      (∀ e' : Engine, checked_dove_crypt bo e' data length =
        Except.ok (dove_crypt bo e' data length)) ∧
      (∀ j, length ≤ j → (dove_crypt bo e data length).2[j]? = data[j]?) ∧
      (∀ v s r, checked_rotleft v s = Except.ok r →
        1 ≤ s ∧ s ≤ 31 ∧ s < 32 ∧ 32 - s < 32) ∧
      ∀ v s r, checked_rotright v s = Except.ok r →
        1 ≤ s ∧ s ≤ 31 ∧ s < 32 ∧ 32 - s < 32 := by
  refine ⟨checked_dove_init_ok e key nonce hk hn, checked_dove_crypt_ok bo e data length hd,
    fun e' => checked_dove_crypt_ok bo e' data length hd, ?_,
    checked_ops_in_range.2.2.2.2.2.2.2.2.1, checked_ops_in_range.2.2.2.2.2.2.2.2.2⟩
  intro j hj
  rw [getElem?_dove_crypt, if_neg (by omega)]

/-- Witness of C14: the key `K`, the nonce `0x00 .. 0x0F` and a call on 70 zero bytes from
the zeroed engine on a little-endian host. -/
theorem safety_under_preconditions_witness :
    1 ≤ [75].length ∧ (List.range 16).length = 16 ∧ 70 ≤ (List.replicate 70 0).length ∧
      checked_dove_crypt Endian.little (dove_reset ⟨[], 0, 0⟩) (List.replicate 70 0) 70 =
        Except.ok (dove_crypt Endian.little (dove_reset ⟨[], 0, 0⟩) (List.replicate 70 0) 70) :=
  ⟨by decide, by decide, by decide,
    (safety_under_preconditions Endian.little (dove_reset ⟨[], 0, 0⟩) [75] (List.range 16)
      (List.replicate 70 0) 70 (by decide) (by decide) (by decide)).2.1⟩

end Dove
